import Mathlib

/-!
# Verification of `big_mult.c`

A shallow embedding of the arbitrary-precision multiplier of `src/big_mult.c`
(decimal parser, schoolbook multiplier, hexadecimal renderer and `main`),
followed by the theorems settling the claims of the specification.

Conventions of the embedding.

* `uint32_t` and `uint64_t` values are natural numbers; every C operation that
  can wrap is written with an explicit `% U32` or `% U64`.
* The heap block behind `BigInt.limb` is the list `limb`; `len` is the separate
  `len` field.  A read `p[i]` is `List.getD _ i 0`, a write is `List.set`.
* A C string is the list of its characters before the terminating NUL, so
  `*s == 0` is the empty list and `s++` is the tail.
* `die` ends the process: a function that may call it returns `Option`.
* Text written by `printf` is returned as a list of characters.
-/

namespace BigMult

/-! ## Machine words -/

/-- Number of values of a `uint32_t`. -/
def U32 : Nat := 4294967296

/-- Number of values of a `uint64_t`. -/
def U64 : Nat := 18446744073709551616

/-! ## Data model -/

/-- The C struct `BigInt`: the block `limb` points to, and the field `len`. -/
structure BigInt where
  limb : List Nat
  len : Nat
deriving DecidableEq

/-- A `BigInt` the C program can hold: every element of the block is a
`uint32_t`, and `len` does not exceed the size of the block. -/
def BigInt.WF (a : BigInt) : Prop :=
  a.len ≤ a.limb.length ∧ ∀ x ∈ a.limb, x < U32

instance (a : BigInt) : Decidable a.WF := by
  unfold BigInt.WF; infer_instance

/-- The sum of `limb[i] * 2^(32*i)` over the first `n` words of a block. -/
def limbSum (l : List Nat) : Nat → Nat
  | 0 => 0
  | n + 1 => limbSum l n + l.getD n 0 * 2 ^ (32 * n)

/-- The value of a `BigInt`: `limb[0] + limb[1]*2^32 + ...` over its `len` words. -/
def BigInt.value (a : BigInt) : Nat := limbSum a.limb a.len

/-- The words in use: the first `len` words of the block. -/
def BigInt.words (a : BigInt) : List Nat := a.limb.take a.len

/-- Invariant I3: the most significant word is nonzero unless `len` is 1
(stated for `len ≥ 1`). -/
def BigInt.Normalized (a : BigInt) : Prop :=
  1 ≤ a.len ∧ (a.len = 1 ∨ a.limb.getD (a.len - 1) 0 ≠ 0)

instance (a : BigInt) : Decidable a.Normalized := by
  unfold BigInt.Normalized; infer_instance

/-! ## Representation and lifecycle -/

/-- `big_create(n)`: `calloc` gives a block of `n` zero words. -/
def big_create (n : Nat) : BigInt :=
  { limb := List.replicate n 0, len := n }

/-- The loop of `big_normalize` on the field `len`:
`while (len > 1 && limb[len - 1] == 0) len--;`. -/
def big_normalize_len (limb : List Nat) : Nat → Nat
  | 0 => 0
  | 1 => 1
  | n + 2 => if limb.getD (n + 1) 0 = 0 then big_normalize_len limb (n + 1) else n + 2

/-- `big_normalize(&a)`: only `len` changes, the block is untouched. -/
def big_normalize (a : BigInt) : BigInt :=
  { a with len := big_normalize_len a.limb a.len }

/-- `big_is_zero(&a)`. -/
def big_is_zero (a : BigInt) : Bool :=
  a.len == 0 || (a.len == 1 && a.limb.getD 0 0 == 0)

/-! ## Decimal strings -/

/-- `isdigit` in the C locale. -/
def isdigit (c : Char) : Bool := 48 ≤ c.toNat && c.toNat ≤ 57

/-- The loop of `is_valid_dec_string`:
`while (*s) { if (!isdigit(*s)) return 0; s++; } return 1;`. -/
def is_valid_dec_string_loop : List Char → Bool
  | [] => true
  | c :: s => if !isdigit c then false else is_valid_dec_string_loop s

/-- `is_valid_dec_string(s)`. -/
def is_valid_dec_string (s : List Char) : Bool :=
  match s with
  | [] => false
  | _ => is_valid_dec_string_loop s

/-! ## Growth primitives -/

/-- The `for` loop of `big_mul_small`, with `r` iterations left, at index `i`:
`cur = (uint64_t)limb[i] * k + carry; limb[i] = cur & 0xFFFFFFFF; carry = cur >> 32`. -/
def big_mul_small_loop (k : Nat) : Nat → Nat → List Nat → Nat → List Nat × Nat
  | 0, _, limb, carry => (limb, carry)
  | r + 1, i, limb, carry =>
    let cur := (limb.getD i 0 * k + carry) % U64
    big_mul_small_loop k r (i + 1) (limb.set i (cur % U32)) (cur / U32)

/-- The tail shared by `big_mul_small` and `big_add_small`: when a carry is
left, `realloc` the block to `len + 1` words and store the carry in the new
word. -/
def grow_with_carry (limb : List Nat) (len carry : Nat) : BigInt :=
  if carry ≠ 0 then
    { limb := limb.take len ++ [carry % U32], len := len + 1 }
  else
    { limb := limb, len := len }

/-- `big_mul_small(&res, k)`. -/
def big_mul_small (res : BigInt) (k : Nat) : BigInt :=
  let out := big_mul_small_loop k res.len 0 res.limb 0
  grow_with_carry out.1 res.len out.2

/-- The `while` loop of `big_add_small`, with at most `r = len - i` iterations
left: `while (carry != 0 && i < len) { cur = limb[i] + carry; ... i++; }`. -/
def big_add_small_loop : Nat → Nat → List Nat → Nat → List Nat × Nat
  | 0, _, limb, carry => (limb, carry)
  | r + 1, i, limb, carry =>
    if carry ≠ 0 then
      let cur := (limb.getD i 0 + carry) % U64
      big_add_small_loop r (i + 1) (limb.set i (cur % U32)) (cur / U32)
    else (limb, carry)

/-- `big_add_small(&res, k)`. -/
def big_add_small (res : BigInt) (k : Nat) : BigInt :=
  let out := big_add_small_loop res.len 0 res.limb k
  grow_with_carry out.1 res.len out.2

/-! ## Parser -/

/-- The digit of `big_from_dec_string`: `(uint32_t)(*s - '0')`. -/
def digit_of (c : Char) : Nat :=
  (((c.toNat : Int) - 48) % (U32 : Int)).toNat

/-- The `while (*s)` loop of `big_from_dec_string`. -/
def big_from_dec_string_loop : List Char → BigInt → BigInt
  | [], res => res
  | c :: s, res =>
    big_from_dec_string_loop s (big_add_small (big_mul_small res 10) (digit_of c))

/-- `big_from_dec_string(s)`; `none` is the call of `die`. -/
def big_from_dec_string (s : List Char) : Option BigInt :=
  if !is_valid_dec_string s then none
  else
    let res : BigInt := { limb := (big_create 1).limb.set 0 0, len := (big_create 1).len }
    some (big_normalize (big_from_dec_string_loop s res))

/-! ## Multiplier -/

/-- The inner `for` loop of `big_mul` for the row `i`, with `r` iterations
left, at column `j`. -/
def big_mul_inner (a_i : Nat) (B : List Nat) (i : Nat) :
    Nat → Nat → List Nat → Nat → List Nat × Nat
  | 0, _, C, carry => (C, carry)
  | r + 1, j, C, carry =>
    let cur := (C.getD (i + j) 0 + (a_i * B.getD j 0) % U64 + carry) % U64
    big_mul_inner a_i B i r (j + 1) (C.set (i + j) (cur % U32)) (cur / U32)

/-- The outer `for` loop of `big_mul`, with `r` iterations left, at row `i`. -/
def big_mul_outer (A B : List Nat) (m : Nat) : Nat → Nat → List Nat → List Nat
  | 0, _, C => C
  | r + 1, i, C =>
    let out := big_mul_inner (A.getD i 0) B i m 0 C 0
    let C1 := out.1.set (i + m) (((out.1.getD (i + m) 0 + out.2) % U64) % U32)
    big_mul_outer A B m r (i + 1) C1

/-- `big_mul(&A, &B)`. -/
def big_mul (A B : BigInt) : BigInt :=
  let n := A.len
  let m := B.len
  let C := big_create (n + m)
  big_normalize { C with limb := big_mul_outer A.limb B.limb m n 0 C.limb }

/-! ## Renderer -/

/-- The character `printf` writes for one hexadecimal digit under `%X`. -/
def hexChar (d : Nat) : Char :=
  if d < 10 then Char.ofNat (48 + d) else Char.ofNat (55 + d)

/-- The hexadecimal digits of `x`, least significant first, at most `f` of
them; a single digit `0` for zero. -/
def hex_digits_rev : Nat → Nat → List Nat
  | 0, _ => []
  | f + 1, x => if x < 16 then [x] else (x % 16) :: hex_digits_rev f (x / 16)

/-- What `printf("%X", x)` writes for an `unsigned int` argument (C standard
library): the uppercase hexadecimal digits of `x` without leading zeros. -/
def printf_X (x : Nat) : List Char :=
  ((hex_digits_rev 8 (x % U32)).reverse).map hexChar

/-- What `printf("%08X", x)` writes: the same digits, padded on the left with
`0` to a width of 8. -/
def printf_08X (x : Nat) : List Char :=
  List.replicate (8 - (printf_X x).length) '0' ++ printf_X x

/-- The loop of `big_print_hex`: `while (i > 0) { i--; printf("%08X", limb[i]); }`. -/
def big_print_hex_loop (limb : List Nat) : Nat → List Char
  | 0 => []
  | i + 1 => printf_08X (limb.getD i 0) ++ big_print_hex_loop limb i

/-- `big_print_hex(&a)`: the text written to standard output. -/
def big_print_hex (a : BigInt) : List Char :=
  if big_is_zero a then "0x0".toList
  else
    let i := a.len - 1
    "0x".toList ++ (printf_X (a.limb.getD i 0) ++ big_print_hex_loop a.limb i)

/-! ## Entry point -/

/-- `EXIT_FAILURE` of `<stdlib.h>`. -/
def EXIT_FAILURE : Nat := 1

/-- What a run of the process leaves behind: the text on standard output, the
text on standard error, and the exit status. -/
structure Outcome where
  stdout : List Char
  stderr : List Char
  status : Nat
deriving DecidableEq

/-- `die(msg)` after `out` was written to standard output. -/
def die (out : List Char) (msg : String) : Outcome :=
  { stdout := out
    stderr := "Fatal error: ".toList ++ msg.toList ++ "\n".toList
    status := EXIT_FAILURE }

/-- The part of `main` after `s1` and `s2` are chosen, `out` being the text
already written to standard output. -/
def main_run (out : List Char) (s1 s2 : List Char) : Outcome :=
  match big_from_dec_string s1 with
  | none => die out "Invalid decimal string (only non-negative integers allowed)"
  | some A =>
    match big_from_dec_string s2 with
    | none => die out "Invalid decimal string (only non-negative integers allowed)"
    | some B =>
      let C := big_mul A B
      { stdout := out ++ (s1 ++ " (dec) * ".toList ++ s2 ++ " (dec) = ".toList)
          ++ big_print_hex C ++ "\n".toList
        stderr := []
        status := 0 }

/-- `main(argc, argv)`, with `argv` the list of the `argc` arguments. -/
def main (argv : List (List Char)) : Outcome :=
  if argv.length = 1 then
    let s1 := "100000".toList
    let s2 := "100000".toList
    main_run ("[INFO] No arguments given. Using default: ".toList ++ s1 ++ " * ".toList
      ++ s2 ++ "\n".toList) s1 s2
  else if argv.length = 3 then
    main_run [] (argv.getD 1 []) (argv.getD 2 [])
  else
    { stdout := []
      stderr := "Usage:\n".toList
        ++ ("  ".toList ++ argv.getD 0 [] ++ "           (default: 100000 * 100000)\n".toList)
        ++ ("  ".toList ++ argv.getD 0 [] ++
            " <A> <B>   (A, B are non-negative decimal strings)\n".toList)
      status := EXIT_FAILURE }

/-! ## Reference notions used by the specification -/

/-- An ASCII decimal digit: a character from `0` (code 48) to `9` (code 57). -/
def IsDecDigit (c : Char) : Prop := 48 ≤ c.toNat ∧ c.toNat ≤ 57

instance (c : Char) : Decidable (IsDecDigit c) := by
  unfold IsDecDigit; infer_instance

/-- A valid decimal string: non-empty, and made of ASCII decimal digits only. -/
def IsDecString (s : List Char) : Prop := s ≠ [] ∧ ∀ c ∈ s, IsDecDigit c

instance (s : List Char) : Decidable (IsDecString s) := by
  unfold IsDecString; infer_instance

/-- The natural number a string of decimal digits denotes in base 10: the
digits read positionally, the last character being the units. -/
def decValue (s : List Char) : Nat :=
  Nat.ofDigits 10 ((s.map fun c => c.toNat - 48).reverse)

/-- The canonical hexadecimal numeral of `v`: uppercase, most significant
digit first, no leading zero, and `0` for zero. -/
def hexNumeral (v : Nat) : List Char :=
  if v = 0 then ['0'] else ((Nat.digits 16 v).reverse).map hexChar

/-- The word `w` as exactly 8 uppercase hexadecimal digits: its canonical
numeral, padded on the left with `0`. -/
def hexPadded8 (w : Nat) : List Char :=
  List.replicate (8 - (hexNumeral w).length) '0' ++ hexNumeral w

/-- The rendering the specification describes for a nonzero value: the top
word `limb[len - 1]` without padding, then every lower word, most significant
first, as 8 digits. -/
def hexByWords (a : BigInt) : List Char :=
  hexNumeral (a.limb.getD (a.len - 1) 0)
    ++ (((List.range (a.len - 1)).reverse).map fun i => hexPadded8 (a.limb.getD i 0)).flatten

/-! ## Auxiliary notions of the proofs -/

/-- The 8 hexadecimal digits of a word, least significant first. -/
def hexDigits8 (w : Nat) : List Nat :=
  Nat.digits 16 w ++ List.replicate (8 - (Nat.digits 16 w).length) 0

/-- The hexadecimal digits of the first `i` words of a block, least
significant first, 8 for each word. -/
def lowHexDigits (l : List Nat) : Nat → List Nat
  | 0 => []
  | i + 1 => lowHexDigits l i ++ hexDigits8 (l.getD i 0)

/-! ## Instrumented loops

The same loops as above, returning the list of the iterations they go through
instead of the final state. -/

/-- One iteration of the loop of `big_mul_small`: the index `i`, the word
`limb[i]` read, the carry entering the iteration and the value the 64-bit
variable `cur` takes. -/
structure SmallStep where
  i : Nat
  word : Nat
  carry : Nat
  cur : Nat
deriving DecidableEq

/-- The iterations of `big_mul_small_loop`, in order. -/
def big_mul_small_log (k : Nat) : Nat → Nat → List Nat → Nat → List SmallStep
  | 0, _, _, _ => []
  | r + 1, i, limb, carry =>
    let cur := (limb.getD i 0 * k + carry) % U64
    { i := i, word := limb.getD i 0, carry := carry, cur := cur }
      :: big_mul_small_log k r (i + 1) (limb.set i (cur % U32)) (cur / U32)

/-- One iteration of the inner loop of `big_mul`: the indices, the block `C`
and the carry entering the iteration, the words `a_i` and `b_j` read, the value
the 64-bit variable `cur` takes, and the block and the carry leaving it. -/
structure InnerStep where
  i : Nat
  j : Nat
  C : List Nat
  a_i : Nat
  b_j : Nat
  carry : Nat
  cur : Nat
  C_out : List Nat
  carry_out : Nat
deriving DecidableEq

/-- The iterations of `big_mul_inner`, in order. -/
def big_mul_inner_log (a_i : Nat) (B : List Nat) (i : Nat) :
    Nat → Nat → List Nat → Nat → List InnerStep
  | 0, _, _, _ => []
  | r + 1, j, C, carry =>
    let cur := (C.getD (i + j) 0 + (a_i * B.getD j 0) % U64 + carry) % U64
    { i := i, j := j, C := C, a_i := a_i, b_j := B.getD j 0, carry := carry, cur := cur
      C_out := C.set (i + j) (cur % U32), carry_out := cur / U32 }
      :: big_mul_inner_log a_i B i r (j + 1) (C.set (i + j) (cur % U32)) (cur / U32)

/-- One iteration of the outer loop of `big_mul`: the row `i`, the iterations
of its inner loop, and the block `C` and the carry at the moment the store to
`C.limb[i + m]` executes. -/
structure OuterStep where
  i : Nat
  inner : List InnerStep
  C : List Nat
  carry : Nat
deriving DecidableEq

/-- The iterations of `big_mul_outer`, in order. -/
def big_mul_outer_log (A B : List Nat) (m : Nat) : Nat → Nat → List Nat → List OuterStep
  | 0, _, _ => []
  | r + 1, i, C =>
    let out := big_mul_inner (A.getD i 0) B i m 0 C 0
    let C1 := out.1.set (i + m) (((out.1.getD (i + m) 0 + out.2) % U64) % U32)
    { i := i, inner := big_mul_inner_log (A.getD i 0) B i m 0 C 0, C := out.1, carry := out.2 }
      :: big_mul_outer_log A B m r (i + 1) C1

/-- The iterations of the outer loop in a call `big_mul(&A, &B)`. -/
def big_mul_log (A B : BigInt) : List OuterStep :=
  big_mul_outer_log A.limb B.limb B.len A.len 0 (big_create (A.len + B.len)).limb

/-! ## Words and sums of words -/

theorem U32_eq : U32 = 2 ^ 32 := by decide

theorem U64_eq : U64 = U32 * U32 := by decide

theorem pow_limb_succ (n : Nat) : 2 ^ (32 * (n + 1)) = U32 * 2 ^ (32 * n) := by
  rw [U32_eq, ← pow_add]; congr 1; ring

theorem pow_limb_add (a b : Nat) : 2 ^ (32 * (a + b)) = 2 ^ (32 * a) * 2 ^ (32 * b) := by
  rw [← pow_add]; congr 1; ring

theorem getD_set (l : List Nat) (i k x : Nat) :
    (l.set i x).getD k 0 = if k = i ∧ i < l.length then x else l.getD k 0 := by
  simp only [List.getD_eq_getElem?_getD, List.getElem?_set]
  by_cases hk : i = k
  · subst hk
    by_cases hl : i < l.length
    · simp [hl]
    · simp [hl, List.getElem?_eq_none (Nat.le_of_not_lt hl)]
  · have hk2 : ¬ k = i := fun h => hk h.symm
    simp [hk, hk2]

theorem getD_set_ne (l : List Nat) (i k x : Nat) (h : k ≠ i) :
    (l.set i x).getD k 0 = l.getD k 0 := by
  rw [getD_set]; simp [h]

theorem getD_set_self (l : List Nat) (i x : Nat) (h : i < l.length) :
    (l.set i x).getD i 0 = x := by
  rw [getD_set]; simp [h]

theorem getD_lt_of_mem (l : List Nat) (h : ∀ x ∈ l, x < U32) (k : Nat) :
    l.getD k 0 < U32 := by
  rw [List.getD_eq_getElem?_getD]
  by_cases hk : k < l.length
  · rw [List.getElem?_eq_getElem hk]
    exact h _ (List.getElem_mem hk)
  · rw [List.getElem?_eq_none (by omega)]
    decide

theorem mem_lt_of_getD (l : List Nat) (h : ∀ k, l.getD k 0 < U32) :
    ∀ x ∈ l, x < U32 := by
  intro x hx
  obtain ⟨k, hk, rfl⟩ := List.getElem_of_mem hx
  have := h k
  rwa [List.getD_eq_getElem?_getD, List.getElem?_eq_getElem hk] at this

theorem limbSum_congr (l l' : List Nat) (n : Nat)
    (h : ∀ k, k < n → l.getD k 0 = l'.getD k 0) : limbSum l n = limbSum l' n := by
  induction n with
  | zero => rfl
  | succ n ih =>
    simp only [limbSum]
    rw [ih (fun k hk => h k (by omega)), h n (by omega)]

theorem limbSum_set_ge (l : List Nat) (i x n : Nat) (h : n ≤ i) :
    limbSum (l.set i x) n = limbSum l n :=
  limbSum_congr _ _ _ (fun k hk => getD_set_ne l i k x (by omega))

theorem limbSum_set (l : List Nat) (i x n : Nat) (hi : i < n) (hl : i < l.length) :
    limbSum (l.set i x) n + l.getD i 0 * 2 ^ (32 * i) = limbSum l n + x * 2 ^ (32 * i) := by
  induction n with
  | zero => omega
  | succ n ih =>
    simp only [limbSum]
    by_cases hin : i = n
    · subst hin
      rw [limbSum_set_ge l i x i (le_refl _), getD_set_self l i x hl]
      omega
    · have := ih (by omega)
      rw [getD_set_ne l i n x (fun h => hin h.symm)]
      omega

theorem limbSum_lt (l : List Nat) (h : ∀ k, l.getD k 0 < U32) (n : Nat) :
    limbSum l n < 2 ^ (32 * n) := by
  induction n with
  | zero => simp [limbSum]
  | succ n ih =>
    simp only [limbSum]
    rw [pow_limb_succ]
    have h1 := h n
    have h2 : l.getD n 0 * 2 ^ (32 * n) + 2 ^ (32 * n) ≤ U32 * 2 ^ (32 * n) := by
      have : (l.getD n 0 + 1) * 2 ^ (32 * n) ≤ U32 * 2 ^ (32 * n) :=
        Nat.mul_le_mul_right _ (by omega)
      linarith
    omega

theorem limbSum_of_zero (l : List Nat) (n : Nat) (h : ∀ k, k < n → l.getD k 0 = 0) :
    limbSum l n = 0 := by
  induction n with
  | zero => rfl
  | succ n ih =>
    simp only [limbSum]
    rw [ih (fun k hk => h k (by omega)), h n (by omega)]
    simp

theorem limbSum_extend (l : List Nat) (n m : Nat) (hnm : n ≤ m)
    (h : ∀ k, n ≤ k → k < m → l.getD k 0 = 0) : limbSum l m = limbSum l n := by
  induction m with
  | zero =>
    have : n = 0 := by omega
    subst this; rfl
  | succ m ih =>
    by_cases hn : n = m + 1
    · subst hn; rfl
    · simp only [limbSum]
      rw [ih (by omega) (fun k h1 h2 => h k h1 (by omega)), h m (by omega) (by omega)]
      simp

/-! ## The multiplier -/

theorem mul_acc_lt (x a b c : Nat) (hx : x < U32) (ha : a < U32) (hb : b < U32)
    (hc : c < U32) : x + a * b + c < U64 := by
  have h : a * b ≤ (U32 - 1) * (U32 - 1) := Nat.mul_le_mul (by omega) (by omega)
  simp only [U32, U64] at *
  omega

theorem mul_acc_eq (x a b c : Nat) (hx : x < U32) (ha : a < U32) (hb : b < U32)
    (hc : c < U32) : (x + (a * b) % U64 + c) % U64 = x + a * b + c := by
  have h := mul_acc_lt x a b c hx ha hb hc
  rw [Nat.mod_eq_of_lt (a := a * b) (by omega), Nat.mod_eq_of_lt h]

theorem div_U32_lt (x : Nat) (h : x < U64) : x / U32 < U32 := by
  apply Nat.div_lt_of_lt_mul
  rw [← U64_eq]; exact h

theorem carry_step_arith (S T a P0 Bj b Pj SC1 hi P Bjr x SC lo c : Nat)
    (h1 : S + T + a * P0 * (Bj + b * Pj) = SC1 + hi * (U32 * P) + a * P0 * Bjr)
    (h2 : SC1 + x * P = SC + lo * P)
    (h3 : x + a * b + c = lo + U32 * hi)
    (h4 : P0 * Pj = P) :
    S + T + a * P0 * Bj = SC + c * P + a * P0 * Bjr := by
  zify at h1 h2 h3 h4 ⊢
  linear_combination h1 + h2 - (P : ℤ) * h3 - (a : ℤ) * b * h4

/-- Invariant of the inner loop of `big_mul`: nothing wraps, only the words
`i + j .. i + j + r - 1` change, and the row `a * B[j .. j + r)` is added in. -/
theorem big_mul_inner_spec (a : Nat) (Bl : List Nat) (i L : Nat) (ha : a < U32)
    (hB : ∀ k, Bl.getD k 0 < U32) :
    ∀ (r j : Nat) (C : List Nat) (c : Nat),
      C.length = L → i + j + r ≤ L → (∀ k, C.getD k 0 < U32) → c < U32 →
      (big_mul_inner a Bl i r j C c).1.length = L ∧
      (∀ k, (big_mul_inner a Bl i r j C c).1.getD k 0 < U32) ∧
      (big_mul_inner a Bl i r j C c).2 < U32 ∧
      (∀ k, (k < i + j ∨ i + j + r ≤ k) →
        (big_mul_inner a Bl i r j C c).1.getD k 0 = C.getD k 0) ∧
      limbSum (big_mul_inner a Bl i r j C c).1 L
          + (big_mul_inner a Bl i r j C c).2 * 2 ^ (32 * (i + j + r))
          + a * 2 ^ (32 * i) * limbSum Bl j
        = limbSum C L + c * 2 ^ (32 * (i + j)) + a * 2 ^ (32 * i) * limbSum Bl (j + r) := by
  intro r
  induction r with
  | zero =>
    intro j C c hL _ hC hc
    exact ⟨hL, hC, hc, fun _ _ => rfl, rfl⟩
  | succ r ih =>
    intro j C c hL hb hC hc
    simp only [big_mul_inner]
    have hcur := mul_acc_eq (C.getD (i + j) 0) a (Bl.getD j 0) c (hC _) ha (hB _) hc
    have hlt := mul_acc_lt (C.getD (i + j) 0) a (Bl.getD j 0) c (hC _) ha (hB _) hc
    rw [hcur]
    have hC1 : ∀ k, (C.set (i + j)
        ((C.getD (i + j) 0 + a * Bl.getD j 0 + c) % U32)).getD k 0 < U32 := by
      intro k
      rw [getD_set]
      split
      · exact Nat.mod_lt _ (by decide)
      · exact hC k
    obtain ⟨g1, g2, g3, g4, g5⟩ := ih (j + 1)
      (C.set (i + j) ((C.getD (i + j) 0 + a * Bl.getD j 0 + c) % U32))
      ((C.getD (i + j) 0 + a * Bl.getD j 0 + c) / U32)
      (by rw [List.length_set]; exact hL) (by omega) hC1 (div_U32_lt _ hlt)
    refine ⟨g1, g2, g3, ?_, ?_⟩
    · intro k hk
      rw [g4 k (by omega), getD_set_ne _ _ _ _ (by omega)]
    · have e1 : i + (j + 1) + r = i + j + (r + 1) := by omega
      have e2 : j + 1 + r = j + (r + 1) := by omega
      have e3 : i + (j + 1) = (i + j) + 1 := by omega
      rw [e1, e2, e3, pow_limb_succ] at g5
      have hs := limbSum_set C (i + j) ((C.getD (i + j) 0 + a * Bl.getD j 0 + c) % U32) L
        (by omega) (by omega)
      have hd : C.getD (i + j) 0 + a * Bl.getD j 0 + c
          = (C.getD (i + j) 0 + a * Bl.getD j 0 + c) % U32
            + U32 * ((C.getD (i + j) 0 + a * Bl.getD j 0 + c) / U32) :=
        (Nat.mod_add_div _ _).symm
      have hp : 2 ^ (32 * i) * 2 ^ (32 * j) = 2 ^ (32 * (i + j)) := (pow_limb_add i j).symm
      simp only [limbSum] at g5
      exact carry_step_arith _ _ _ _ _ _ _ _ _ _ _ _ _ _ _ g5 hs hd hp

/-- Invariant of the outer loop of `big_mul`: before row `i` the block holds
`A[0..i) * B`, and every word from index `i + m` on is still zero. -/
theorem big_mul_outer_spec (Al Bl : List Nat) (m L : Nat)
    (hA : ∀ k, Al.getD k 0 < U32) (hB : ∀ k, Bl.getD k 0 < U32) :
    ∀ (r i : Nat) (C : List Nat),
      C.length = L → i + r + m ≤ L → (∀ k, C.getD k 0 < U32) →
      (∀ k, i + m ≤ k → C.getD k 0 = 0) →
      limbSum C L = limbSum Al i * limbSum Bl m →
      (big_mul_outer Al Bl m r i C).length = L ∧
      (∀ k, (big_mul_outer Al Bl m r i C).getD k 0 < U32) ∧
      limbSum (big_mul_outer Al Bl m r i C) L = limbSum Al (i + r) * limbSum Bl m := by
  intro r
  induction r with
  | zero =>
    intro i C hL _ hC _ hv
    exact ⟨hL, hC, hv⟩
  | succ r ih =>
    intro i C hL hb hC hz hv
    simp only [big_mul_outer]
    obtain ⟨g1, g2, g3, g4, g5⟩ :=
      big_mul_inner_spec (Al.getD i 0) Bl i L (hA i) hB m 0 C 0 hL (by omega) hC (by decide)
    have htop : (big_mul_inner (Al.getD i 0) Bl i m 0 C 0).1.getD (i + m) 0 = 0 := by
      rw [g4 (i + m) (by omega)]; exact hz _ (le_refl _)
    have hstore : ((big_mul_inner (Al.getD i 0) Bl i m 0 C 0).1.getD (i + m) 0
        + (big_mul_inner (Al.getD i 0) Bl i m 0 C 0).2) % U64 % U32
        = (big_mul_inner (Al.getD i 0) Bl i m 0 C 0).2 := by
      rw [htop, Nat.zero_add, Nat.mod_eq_of_lt (b := U64), Nat.mod_eq_of_lt g3]
      exact lt_trans g3 (by decide)
    rw [hstore]
    have e1 : i + 1 + r = i + (r + 1) := by omega
    have hs := limbSum_set (big_mul_inner (Al.getD i 0) Bl i m 0 C 0).1 (i + m)
      (big_mul_inner (Al.getD i 0) Bl i m 0 C 0).2 L (by omega) (by omega)
    rw [htop] at hs
    have h := ih (i + 1)
      ((big_mul_inner (Al.getD i 0) Bl i m 0 C 0).1.set (i + m)
        (big_mul_inner (Al.getD i 0) Bl i m 0 C 0).2)
      (by rw [List.length_set]; exact g1) (by omega)
      (by
        intro k
        rw [getD_set]
        split
        · exact g3
        · exact g2 k)
      (by
        intro k hk
        rw [getD_set_ne _ _ _ _ (by omega), g4 k (by omega)]
        exact hz k (by omega))
      (by
        simp only [limbSum, Nat.add_zero, Nat.zero_add, Nat.zero_mul, Nat.mul_zero] at g5 hs ⊢
        rw [Nat.add_mul, ← hv]
        omega)
    rw [e1] at h
    exact h

/-! ## Normalisation -/

theorem big_normalize_len_le (l : List Nat) (n : Nat) : big_normalize_len l n ≤ n := by
  induction n using big_normalize_len.induct l with
  | case1 => simp [big_normalize_len]
  | case2 => simp [big_normalize_len]
  | case3 n h ih => rw [big_normalize_len, if_pos h]; omega
  | case4 n h => rw [big_normalize_len, if_neg h]

theorem big_normalize_len_pos (l : List Nat) (n : Nat) (hn : 1 ≤ n) :
    1 ≤ big_normalize_len l n := by
  induction n using big_normalize_len.induct l with
  | case1 => omega
  | case2 => simp [big_normalize_len]
  | case3 n h ih => rw [big_normalize_len, if_pos h]; exact ih (by omega)
  | case4 n h => rw [big_normalize_len, if_neg h]; omega

theorem big_normalize_len_dropped (l : List Nat) (n : Nat) :
    ∀ k, big_normalize_len l n ≤ k → k < n → l.getD k 0 = 0 := by
  induction n using big_normalize_len.induct l with
  | case1 => intro k _ hk; omega
  | case2 => intro k h1 h2; simp [big_normalize_len] at h1; omega
  | case3 n h ih =>
    intro k h1 h2
    rw [big_normalize_len, if_pos h] at h1
    by_cases hk : k = n + 1
    · rw [hk]; exact h
    · exact ih k h1 (by omega)
  | case4 n h =>
    intro k h1 h2
    rw [big_normalize_len, if_neg h] at h1
    omega

theorem big_normalize_len_top (l : List Nat) (n : Nat) :
    big_normalize_len l n ≤ 1 ∨ l.getD (big_normalize_len l n - 1) 0 ≠ 0 := by
  induction n using big_normalize_len.induct l with
  | case1 => simp [big_normalize_len]
  | case2 => simp [big_normalize_len]
  | case3 n h ih => rw [big_normalize_len, if_pos h]; exact ih
  | case4 n h => rw [big_normalize_len, if_neg h]; right; exact h

theorem big_normalize_len_fixed (l : List Nat) (n : Nat)
    (h : n ≤ 1 ∨ l.getD (n - 1) 0 ≠ 0) : big_normalize_len l n = n := by
  match n, h with
  | 0, _ => rfl
  | 1, _ => rfl
  | n + 2, h =>
    rw [big_normalize_len, if_neg]
    rcases h with h | h
    · omega
    · exact h

theorem limbSum_normalize_len (l : List Nat) (n : Nat) :
    limbSum l (big_normalize_len l n) = limbSum l n :=
  (limbSum_extend l _ n (big_normalize_len_le l n) (big_normalize_len_dropped l n)).symm

theorem big_normalize_value (a : BigInt) : (big_normalize a).value = a.value :=
  limbSum_normalize_len a.limb a.len

theorem big_normalize_normalized (a : BigInt) (h : 1 ≤ a.len) :
    (big_normalize a).Normalized := by
  refine ⟨big_normalize_len_pos a.limb a.len h, ?_⟩
  have h1 := big_normalize_len_pos a.limb a.len h
  rcases big_normalize_len_top a.limb a.len with h2 | h2
  · left
    show big_normalize_len a.limb a.len = 1
    omega
  · right; exact h2

theorem big_normalize_WF (a : BigInt) (h : a.WF) : (big_normalize a).WF :=
  ⟨le_trans (big_normalize_len_le a.limb a.len) h.1, h.2⟩

theorem getD_replicate_zero (n k : Nat) : (List.replicate n 0).getD k 0 = 0 := by
  rw [List.getD_eq_getElem?_getD]
  by_cases hk : k < n
  · rw [List.getElem?_eq_getElem (by simpa using hk)]; simp
  · rw [List.getElem?_eq_none (by simpa using hk)]; rfl

/-- The block `big_mul` fills, before normalisation: `n + m` words, each a
`uint32_t`, holding the exact product. -/
theorem big_mul_block (A B : BigInt) (hA : ∀ x ∈ A.limb, x < U32)
    (hB : ∀ x ∈ B.limb, x < U32) :
    (big_mul_outer A.limb B.limb B.len A.len 0 (big_create (A.len + B.len)).limb).length
        = A.len + B.len ∧
    (∀ k, (big_mul_outer A.limb B.limb B.len A.len 0
        (big_create (A.len + B.len)).limb).getD k 0 < U32) ∧
    limbSum (big_mul_outer A.limb B.limb B.len A.len 0 (big_create (A.len + B.len)).limb)
        (A.len + B.len) = A.value * B.value := by
  have h := big_mul_outer_spec A.limb B.limb B.len (A.len + B.len)
    (getD_lt_of_mem _ hA) (getD_lt_of_mem _ hB) A.len 0 (big_create (A.len + B.len)).limb
    (by simp [big_create]) (by omega)
    (by intro k; simp only [big_create]; rw [getD_replicate_zero]; decide)
    (by intro k _; simp only [big_create]; rw [getD_replicate_zero])
    (by
      rw [limbSum_of_zero _ _ (fun k _ => by simp only [big_create]; rw [getD_replicate_zero])]
      simp [limbSum])
  rw [Nat.zero_add] at h
  exact h

theorem big_mul_WF (A B : BigInt) (hA : A.WF) (hB : B.WF) : (big_mul A B).WF := by
  obtain ⟨h1, h2, _⟩ := big_mul_block A B hA.2 hB.2
  apply big_normalize_WF
  exact ⟨le_of_eq h1.symm, mem_lt_of_getD _ h2⟩

theorem big_mul_value_eq (A B : BigInt) (hA : A.WF) (hB : B.WF) :
    (big_mul A B).value = A.value * B.value := by
  obtain ⟨_, _, h3⟩ := big_mul_block A B hA.2 hB.2
  unfold big_mul
  rw [big_normalize_value]
  exact h3

/-! ## The growth primitives -/

theorem getD_take_append (l : List Nat) (n c k : Nat) (hn : n ≤ l.length) :
    (l.take n ++ [c]).getD k 0 = if k < n then l.getD k 0 else if k = n then c else 0 := by
  simp only [List.getD_eq_getElem?_getD]
  have hlen : (l.take n).length = n := by simp [hn]
  by_cases h1 : k < n
  · rw [if_pos h1, List.getElem?_append_left (by omega), List.getElem?_take_of_lt h1]
  · rw [if_neg h1, List.getElem?_append_right (by omega), hlen]
    by_cases h2 : k = n
    · subst h2; simp
    · rw [if_neg h2]
      have : k - n ≠ 0 := by omega
      obtain ⟨t, ht⟩ := Nat.exists_eq_succ_of_ne_zero this
      rw [ht]; simp

theorem grow_with_carry_value (limb : List Nat) (len carry : Nat) (hlen : len ≤ limb.length)
    (hc : carry < U32) :
    (grow_with_carry limb len carry).value = limbSum limb len + carry * 2 ^ (32 * len) := by
  unfold grow_with_carry
  split
  · show limbSum (limb.take len ++ [carry % U32]) (len + 1) = _
    simp only [limbSum]
    rw [limbSum_congr (limb.take len ++ [carry % U32]) limb len
      (fun k hk => by rw [getD_take_append _ _ _ _ hlen, if_pos hk]),
      getD_take_append _ _ _ _ hlen, if_neg (by omega), if_pos rfl, Nat.mod_eq_of_lt hc]
  · rename_i h
    have : carry = 0 := by omega
    subst this
    show limbSum limb len = _
    simp

theorem grow_with_carry_WF (limb : List Nat) (len carry : Nat) (hlen : len ≤ limb.length)
    (hb : ∀ x ∈ limb, x < U32) : (grow_with_carry limb len carry).WF := by
  unfold grow_with_carry
  split
  · refine ⟨by simp [hlen], ?_⟩
    intro x hx
    rcases List.mem_append.1 hx with h | h
    · exact hb x (List.mem_of_mem_take h)
    · have : x = carry % U32 := by simpa using h
      rw [this]; exact Nat.mod_lt _ (by decide)
  · exact ⟨hlen, hb⟩

theorem grow_with_carry_len (limb : List Nat) (len carry : Nat) :
    (grow_with_carry limb len carry).len = if carry ≠ 0 then len + 1 else len := by
  unfold grow_with_carry
  split <;> rfl

theorem mul_small_step_arith (So T k S1i hi P S1n Si lo x Sn c : Nat)
    (h1 : So + T + k * S1i = S1i + hi * (U32 * P) + k * S1n)
    (h2 : S1i = Si + lo * P)
    (h3 : S1n + x * P = Sn + lo * P)
    (h4 : x * k + c = lo + U32 * hi) :
    So + T + k * Si = Si + c * P + k * Sn := by
  zify at h1 h2 h3 h4 ⊢
  linear_combination h1 + (1 - (k : ℤ)) * h2 + (k : ℤ) * h3 - (P : ℤ) * h4

/-- Invariant of the loop of `big_mul_small`: nothing wraps, the words below
`i` and from `i + r` on are kept, and the words `i .. i + r - 1` are
multiplied by `k` with the carry passed upwards. -/
theorem big_mul_small_loop_spec (k : Nat) (hk : k < U32) :
    ∀ (r i : Nat) (limb : List Nat) (c : Nat),
      i + r ≤ limb.length → (∀ j, limb.getD j 0 < U32) → c < U32 →
      (big_mul_small_loop k r i limb c).1.length = limb.length ∧
      (∀ j, (big_mul_small_loop k r i limb c).1.getD j 0 < U32) ∧
      (big_mul_small_loop k r i limb c).2 < U32 ∧
      (∀ j, (j < i ∨ i + r ≤ j) →
        (big_mul_small_loop k r i limb c).1.getD j 0 = limb.getD j 0) ∧
      limbSum (big_mul_small_loop k r i limb c).1 (i + r)
          + (big_mul_small_loop k r i limb c).2 * 2 ^ (32 * (i + r)) + k * limbSum limb i
        = limbSum limb i + c * 2 ^ (32 * i) + k * limbSum limb (i + r) := by
  intro r
  induction r with
  | zero =>
    intro i limb c _ hl hc
    exact ⟨rfl, hl, hc, fun _ _ => rfl, by simp [big_mul_small_loop]⟩
  | succ r ih =>
    intro i limb c hb hl hc
    simp only [big_mul_small_loop]
    have hlt : limb.getD i 0 * k + c < U64 := by
      have := mul_acc_lt 0 (limb.getD i 0) k c (by decide) (hl i) hk hc
      omega
    rw [Nat.mod_eq_of_lt hlt]
    have hl1 : ∀ j, (limb.set i ((limb.getD i 0 * k + c) % U32)).getD j 0 < U32 := by
      intro j
      rw [getD_set]
      split
      · exact Nat.mod_lt _ (by decide)
      · exact hl j
    obtain ⟨g1, g2, g3, g4, g5⟩ := ih (i + 1)
      (limb.set i ((limb.getD i 0 * k + c) % U32)) ((limb.getD i 0 * k + c) / U32)
      (by rw [List.length_set]; omega) hl1 (div_U32_lt _ hlt)
    rw [List.length_set] at g1
    refine ⟨g1, g2, g3, ?_, ?_⟩
    · intro j hj
      rw [g4 j (by omega), getD_set_ne _ _ _ _ (by omega)]
    · have e1 : i + 1 + r = i + (r + 1) := by omega
      rw [e1, pow_limb_succ] at g5
      have ha : limbSum (limb.set i ((limb.getD i 0 * k + c) % U32)) (i + 1)
          = limbSum limb i + (limb.getD i 0 * k + c) % U32 * 2 ^ (32 * i) := by
        simp only [limbSum]
        rw [limbSum_set_ge _ _ _ _ (le_refl _), getD_set_self _ _ _ (by omega)]
      have hs := limbSum_set limb i ((limb.getD i 0 * k + c) % U32) (i + (r + 1))
        (by omega) (by omega)
      have hd : limb.getD i 0 * k + c
          = (limb.getD i 0 * k + c) % U32 + U32 * ((limb.getD i 0 * k + c) / U32) :=
        (Nat.mod_add_div _ _).symm
      exact mul_small_step_arith _ _ _ _ _ _ _ _ _ _ _ _ g5 ha hs hd

theorem big_mul_small_value (res : BigInt) (k : Nat) (h : res.WF) (hk : k < U32) :
    (big_mul_small res k).value = res.value * k := by
  obtain ⟨g1, _, g3, _, g5⟩ := big_mul_small_loop_spec k hk res.len 0 res.limb 0
    (by have := h.1; omega) (getD_lt_of_mem _ h.2) (by decide)
  unfold big_mul_small
  rw [grow_with_carry_value _ _ _ (by rw [g1]; exact h.1) g3]
  simp only [limbSum, Nat.zero_add, Nat.zero_mul, Nat.mul_zero, Nat.add_zero] at g5
  rw [g5, Nat.mul_comm]
  rfl

theorem big_mul_small_WF (res : BigInt) (k : Nat) (h : res.WF) (hk : k < U32) :
    (big_mul_small res k).WF := by
  obtain ⟨g1, g2, _, _, _⟩ := big_mul_small_loop_spec k hk res.len 0 res.limb 0
    (by have := h.1; omega) (getD_lt_of_mem _ h.2) (by decide)
  unfold big_mul_small
  exact grow_with_carry_WF _ _ _ (by rw [g1]; exact h.1) (mem_lt_of_getD _ g2)

theorem big_mul_small_len (res : BigInt) (k : Nat) : res.len ≤ (big_mul_small res k).len := by
  unfold big_mul_small
  simp only [grow_with_carry_len]
  split <;> omega

theorem add_small_step_arith (So T S1n hi P x Sn lo c : Nat)
    (h1 : So + T = S1n + hi * (U32 * P))
    (h3 : S1n + x * P = Sn + lo * P)
    (h4 : x + c = lo + U32 * hi) :
    So + T = Sn + c * P := by
  zify at h1 h3 h4 ⊢
  linear_combination h1 + h3 - (P : ℤ) * h4

/-- Invariant of the loop of `big_add_small`: nothing wraps, and the carry is
added in at word `i`. -/
theorem big_add_small_loop_spec :
    ∀ (r i : Nat) (limb : List Nat) (c : Nat),
      i + r ≤ limb.length → (∀ j, limb.getD j 0 < U32) → c < U32 →
      (big_add_small_loop r i limb c).1.length = limb.length ∧
      (∀ j, (big_add_small_loop r i limb c).1.getD j 0 < U32) ∧
      (big_add_small_loop r i limb c).2 < U32 ∧
      (∀ j, (j < i ∨ i + r ≤ j) →
        (big_add_small_loop r i limb c).1.getD j 0 = limb.getD j 0) ∧
      limbSum (big_add_small_loop r i limb c).1 (i + r)
          + (big_add_small_loop r i limb c).2 * 2 ^ (32 * (i + r))
        = limbSum limb (i + r) + c * 2 ^ (32 * i) := by
  intro r
  induction r with
  | zero =>
    intro i limb c _ hl hc
    exact ⟨rfl, hl, hc, fun _ _ => rfl, rfl⟩
  | succ r ih =>
    intro i limb c hb hl hc
    by_cases hc0 : c = 0
    · subst hc0
      have e : big_add_small_loop (r + 1) i limb 0 = (limb, 0) := by
        simp [big_add_small_loop]
      rw [e]
      exact ⟨rfl, hl, hc, fun _ _ => rfl, by simp⟩
    · simp only [big_add_small_loop]
      rw [if_pos hc0]
      have hlt : limb.getD i 0 + c < U64 := by
        have := hl i
        simp only [U32, U64] at *
        omega
      rw [Nat.mod_eq_of_lt hlt]
      have hl1 : ∀ j, (limb.set i ((limb.getD i 0 + c) % U32)).getD j 0 < U32 := by
        intro j
        rw [getD_set]
        split
        · exact Nat.mod_lt _ (by decide)
        · exact hl j
      obtain ⟨g1, g2, g3, g4, g5⟩ := ih (i + 1)
        (limb.set i ((limb.getD i 0 + c) % U32)) ((limb.getD i 0 + c) / U32)
        (by rw [List.length_set]; omega) hl1 (div_U32_lt _ hlt)
      rw [List.length_set] at g1
      refine ⟨g1, g2, g3, ?_, ?_⟩
      · intro j hj
        rw [g4 j (by omega), getD_set_ne _ _ _ _ (by omega)]
      · have e1 : i + 1 + r = i + (r + 1) := by omega
        rw [e1, pow_limb_succ] at g5
        have hs := limbSum_set limb i ((limb.getD i 0 + c) % U32) (i + (r + 1))
          (by omega) (by omega)
        have hd : limb.getD i 0 + c
            = (limb.getD i 0 + c) % U32 + U32 * ((limb.getD i 0 + c) / U32) :=
          (Nat.mod_add_div _ _).symm
        exact add_small_step_arith _ _ _ _ _ _ _ _ _ g5 hs hd

theorem big_add_small_value (res : BigInt) (k : Nat) (h : res.WF) (hk : k < U32) :
    (big_add_small res k).value = res.value + k := by
  obtain ⟨g1, _, g3, _, g5⟩ := big_add_small_loop_spec res.len 0 res.limb k
    (by have := h.1; omega) (getD_lt_of_mem _ h.2) hk
  unfold big_add_small
  rw [grow_with_carry_value _ _ _ (by rw [g1]; exact h.1) g3]
  simp only [Nat.zero_add, Nat.mul_zero, pow_zero, Nat.mul_one] at g5
  rw [g5]
  rfl

theorem big_add_small_WF (res : BigInt) (k : Nat) (h : res.WF) (hk : k < U32) :
    (big_add_small res k).WF := by
  obtain ⟨g1, g2, _, _, _⟩ := big_add_small_loop_spec res.len 0 res.limb k
    (by have := h.1; omega) (getD_lt_of_mem _ h.2) hk
  unfold big_add_small
  exact grow_with_carry_WF _ _ _ (by rw [g1]; exact h.1) (mem_lt_of_getD _ g2)

theorem big_add_small_len (res : BigInt) (k : Nat) : res.len ≤ (big_add_small res k).len := by
  unfold big_add_small
  simp only [grow_with_carry_len]
  split <;> omega

/-! ## The parser -/

theorem isdigit_iff (c : Char) : isdigit c = true ↔ IsDecDigit c := by
  simp [isdigit, IsDecDigit]

theorem is_valid_dec_string_loop_iff (s : List Char) :
    is_valid_dec_string_loop s = true ↔ ∀ c ∈ s, IsDecDigit c := by
  induction s with
  | nil => simp [is_valid_dec_string_loop]
  | cons c s ih =>
    simp only [is_valid_dec_string_loop, List.mem_cons, forall_eq_or_imp]
    by_cases hc : isdigit c = true
    · have hd := (isdigit_iff c).1 hc
      simp [hc, hd, ih]
    · have hd : ¬ IsDecDigit c := fun h => hc ((isdigit_iff c).2 h)
      simp [hc, hd]

theorem is_valid_dec_string_iff (s : List Char) :
    is_valid_dec_string s = true ↔ IsDecString s := by
  cases s with
  | nil => simp [is_valid_dec_string, IsDecString]
  | cons c s =>
    simp only [is_valid_dec_string, IsDecString, ne_eq, reduceCtorEq, not_false_eq_true,
      true_and]
    exact is_valid_dec_string_loop_iff (c :: s)

theorem digit_of_eq (c : Char) (h : IsDecDigit c) : digit_of c = c.toNat - 48 := by
  unfold digit_of
  obtain ⟨h1, h2⟩ := h
  have e : ((c.toNat : Int) - 48) = ((c.toNat - 48 : Nat) : Int) := by omega
  rw [e, Int.emod_eq_of_lt (by omega) (by simp only [U32]; omega)]
  simp

theorem digit_of_lt (c : Char) (h : IsDecDigit c) : digit_of c < 10 := by
  rw [digit_of_eq c h]
  obtain ⟨h1, h2⟩ := h
  omega

theorem decValue_nil : decValue [] = 0 := by
  simp [decValue]

theorem decValue_cons (c : Char) (s : List Char) :
    decValue (c :: s) = (c.toNat - 48) * 10 ^ s.length + decValue s := by
  simp only [decValue, List.map_cons, List.reverse_cons, Nat.ofDigits_append,
    Nat.ofDigits_singleton, List.length_reverse, List.length_map]
  ring

/-- The loop of `big_from_dec_string` is a Horner evaluation of the digits. -/
theorem big_from_dec_string_loop_spec (s : List Char) :
    ∀ res : BigInt, res.WF → 1 ≤ res.len → (∀ c ∈ s, IsDecDigit c) →
      (big_from_dec_string_loop s res).WF ∧ 1 ≤ (big_from_dec_string_loop s res).len ∧
      (big_from_dec_string_loop s res).value = res.value * 10 ^ s.length + decValue s := by
  induction s with
  | nil =>
    intro res h1 h2 _
    exact ⟨h1, h2, by simp [big_from_dec_string_loop, decValue_nil]⟩
  | cons c s ih =>
    intro res h1 h2 hs
    have hc : IsDecDigit c := hs c (List.mem_cons_self _ _)
    have hd : digit_of c < U32 := lt_trans (digit_of_lt c hc) (by decide)
    have w1 := big_mul_small_WF res 10 h1 (by decide)
    have w2 := big_add_small_WF _ (digit_of c) w1 hd
    have l1 := big_mul_small_len res 10
    have l2 := big_add_small_len (big_mul_small res 10) (digit_of c)
    obtain ⟨g1, g2, g3⟩ := ih (big_add_small (big_mul_small res 10) (digit_of c)) w2
      (by omega) (fun x hx => hs x (List.mem_cons_of_mem _ hx))
    refine ⟨g1, g2, ?_⟩
    show (big_from_dec_string_loop s _).value = _
    rw [g3, big_add_small_value _ _ w1 hd, big_mul_small_value _ _ h1 (by decide),
      decValue_cons, digit_of_eq c hc, List.length_cons]
    ring

/-- On a valid decimal string the parser returns a well-formed, normalized
`BigInt` holding the denoted number. -/
theorem big_from_dec_string_spec (s : List Char) (h : IsDecString s) :
    ∃ a, big_from_dec_string s = some a ∧ a.WF ∧ a.Normalized ∧ a.value = decValue s := by
  have hv := (is_valid_dec_string_iff s).2 h
  obtain ⟨g1, g2, g3⟩ := big_from_dec_string_loop_spec s ⟨[0], 1⟩ (by decide) (by decide) h.2
  refine ⟨big_normalize (big_from_dec_string_loop s ⟨[0], 1⟩), ?_, ?_, ?_, ?_⟩
  · simp only [big_from_dec_string, hv]
    rfl
  · exact big_normalize_WF _ g1
  · exact big_normalize_normalized _ g2
  · rw [big_normalize_value, g3]
    simp [BigInt.value, limbSum]

theorem big_from_dec_string_none (s : List Char) (h : ¬ IsDecString s) :
    big_from_dec_string s = none := by
  have hv : is_valid_dec_string s = false := by
    cases hb : is_valid_dec_string s with
    | false => rfl
    | true => exact absurd ((is_valid_dec_string_iff s).1 hb) h
  simp [big_from_dec_string, hv]

/-! ## The renderer -/

theorem hexChar_zero : hexChar 0 = '0' := by decide

theorem hexChar_inj : ∀ d, d < 16 → ∀ e, e < 16 → hexChar d = hexChar e → d = e := by
  decide

theorem map_hexChar_inj (l1 : List Nat) :
    ∀ l2 : List Nat, (∀ x ∈ l1, x < 16) → (∀ x ∈ l2, x < 16) →
      l1.map hexChar = l2.map hexChar → l1 = l2 := by
  induction l1 with
  | nil =>
    intro l2 _ _ h
    cases l2 with
    | nil => rfl
    | cons y l2 => simp at h
  | cons x l1 ih =>
    intro l2 h1 h2 h
    cases l2 with
    | nil => simp at h
    | cons y l2 =>
      simp only [List.map_cons, List.cons.injEq] at h
      have hx := hexChar_inj x (h1 x (List.mem_cons_self _ _)) y
        (h2 y (List.mem_cons_self _ _)) h.1
      have ht := ih l2 (fun z hz => h1 z (List.mem_cons_of_mem _ hz))
        (fun z hz => h2 z (List.mem_cons_of_mem _ hz)) h.2
      rw [hx, ht]

theorem hex_digits_rev_length (f x : Nat) : (hex_digits_rev f x).length ≤ f := by
  induction f generalizing x with
  | zero => simp [hex_digits_rev]
  | succ f ih =>
    simp only [hex_digits_rev]
    split
    · simp
    · have := ih (x / 16)
      simp only [List.length_cons]
      omega

theorem hex_digits_rev_eq (f x : Nat) (hx : x < 16 ^ f) (h0 : 0 < x) :
    hex_digits_rev f x = Nat.digits 16 x := by
  induction f generalizing x with
  | zero => simp at hx; omega
  | succ f ih =>
    simp only [hex_digits_rev]
    split
    · rename_i h
      rw [Nat.digits_of_lt 16 x (by omega) h]
    · rename_i h
      rw [Nat.digits_def' (by decide) h0, ih (x / 16)]
      · apply Nat.div_lt_of_lt_mul
        rw [pow_succ] at hx
        omega
      · exact Nat.div_pos (by omega) (by decide)

theorem digits16_length_le (x : Nat) (hx : x < U32) : (Nat.digits 16 x).length ≤ 8 := by
  by_cases h0 : x = 0
  · subst h0; simp
  · rw [← hex_digits_rev_eq 8 x (by simpa [U32] using hx) (by omega)]
    exact hex_digits_rev_length 8 x

theorem printf_X_eq (x : Nat) (hx : x < U32) : printf_X x = hexNumeral x := by
  unfold printf_X hexNumeral
  rw [Nat.mod_eq_of_lt hx]
  by_cases h0 : x = 0
  · subst h0; rfl
  · rw [if_neg h0, hex_digits_rev_eq 8 x (by simpa [U32] using hx) (by omega)]

theorem printf_08X_eq (x : Nat) (hx : x < U32) : printf_08X x = hexPadded8 x := by
  unfold printf_08X hexPadded8
  rw [printf_X_eq x hx]

theorem hexPadded8_eq (x : Nat) : hexPadded8 x = ((hexDigits8 x).reverse).map hexChar := by
  unfold hexPadded8 hexDigits8 hexNumeral
  by_cases h0 : x = 0
  · subst h0
    simp only [if_true, Nat.digits_zero]
    decide
  · rw [if_neg h0]
    simp [hexChar_zero]

theorem hexDigits8_length (x : Nat) (hx : x < U32) : (hexDigits8 x).length = 8 := by
  have := digits16_length_le x hx
  simp only [hexDigits8, List.length_append, List.length_replicate]
  omega

theorem hexPadded8_length (x : Nat) (hx : x < U32) : (hexPadded8 x).length = 8 := by
  rw [hexPadded8_eq]
  simp [hexDigits8_length x hx]

theorem hexDigits8_lt (x : Nat) : ∀ d ∈ hexDigits8 x, d < 16 := by
  intro d hd
  rcases List.mem_append.1 hd with h | h
  · exact Nat.digits_lt_base (by decide) h
  · have := (List.mem_replicate.1 h).2
    omega

theorem ofDigits_hexDigits8 (x : Nat) : Nat.ofDigits 16 (hexDigits8 x) = x := by
  have hz : ∀ n, Nat.ofDigits 16 (List.replicate n 0) = 0 := by
    intro n
    induction n with
    | zero => rfl
    | succ n ih => simp [List.replicate_succ, Nat.ofDigits_cons, ih]
  simp only [hexDigits8, Nat.ofDigits_append, Nat.ofDigits_digits, hz]
  simp

theorem lowHexDigits_length (l : List Nat) (h : ∀ k, l.getD k 0 < U32) (i : Nat) :
    (lowHexDigits l i).length = 8 * i := by
  induction i with
  | zero => rfl
  | succ i ih =>
    simp only [lowHexDigits, List.length_append, ih, hexDigits8_length _ (h i)]
    omega

theorem lowHexDigits_lt (l : List Nat) (i : Nat) : ∀ d ∈ lowHexDigits l i, d < 16 := by
  induction i with
  | zero => intro d hd; simp [lowHexDigits] at hd
  | succ i ih =>
    intro d hd
    rcases List.mem_append.1 hd with h | h
    · exact ih d h
    · exact hexDigits8_lt _ d h

theorem pow16_eq (i : Nat) : 16 ^ (8 * i) = 2 ^ (32 * i) := by
  have : (16 : Nat) = 2 ^ 4 := by norm_num
  rw [this, ← pow_mul]
  congr 1
  ring

theorem ofDigits_lowHexDigits (l : List Nat) (h : ∀ k, l.getD k 0 < U32) (i : Nat) :
    Nat.ofDigits 16 (lowHexDigits l i) = limbSum l i := by
  induction i with
  | zero => rfl
  | succ i ih =>
    simp only [lowHexDigits, limbSum, Nat.ofDigits_append, ih, lowHexDigits_length l h,
      ofDigits_hexDigits8, pow16_eq]
    ring

theorem big_print_hex_loop_eq (l : List Nat) (h : ∀ k, l.getD k 0 < U32) (i : Nat) :
    big_print_hex_loop l i = ((lowHexDigits l i).reverse).map hexChar := by
  induction i with
  | zero => rfl
  | succ i ih =>
    simp only [big_print_hex_loop, lowHexDigits, List.reverse_append, List.map_append, ih,
      printf_08X_eq _ (h i), hexPadded8_eq]

theorem big_print_hex_loop_words (l : List Nat) (h : ∀ k, l.getD k 0 < U32) (i : Nat) :
    big_print_hex_loop l i
      = (((List.range i).reverse).map fun k => hexPadded8 (l.getD k 0)).flatten := by
  induction i with
  | zero => rfl
  | succ i ih =>
    simp only [big_print_hex_loop, List.range_succ, List.reverse_append, List.reverse_cons,
      List.reverse_nil, List.nil_append, List.singleton_append, List.map_cons,
      List.flatten_cons, ih, printf_08X_eq _ (h i)]

theorem hexNumeral_words (l : List Nat) (h : ∀ k, l.getD k 0 < U32) (n t : Nat)
    (ht : t ≠ 0) :
    hexNumeral (limbSum l n + t * 2 ^ (32 * n)) = hexNumeral t ++ big_print_hex_loop l n := by
  have hne : Nat.digits 16 t ≠ [] := Nat.digits_ne_nil_iff_ne_zero.2 ht
  have hof : Nat.ofDigits 16 (lowHexDigits l n ++ Nat.digits 16 t)
      = limbSum l n + t * 2 ^ (32 * n) := by
    rw [Nat.ofDigits_append, ofDigits_lowHexDigits l h, lowHexDigits_length l h,
      Nat.ofDigits_digits, pow16_eq]
    ring
  have hdig : Nat.digits 16 (limbSum l n + t * 2 ^ (32 * n))
      = lowHexDigits l n ++ Nat.digits 16 t := by
    rw [← hof]
    apply Nat.digits_ofDigits 16 (by decide)
    · intro d hd
      rcases List.mem_append.1 hd with h1 | h1
      · exact lowHexDigits_lt l n d h1
      · exact Nat.digits_lt_base (by decide) h1
    · intro hL
      rw [List.getLast_append_of_ne_nil hne]
      exact Nat.getLast_digit_ne_zero 16 ht
  have hpos : 0 < t * 2 ^ (32 * n) := Nat.mul_pos (by omega) (by positivity)
  have hv : limbSum l n + t * 2 ^ (32 * n) ≠ 0 := by omega
  unfold hexNumeral
  rw [if_neg hv, if_neg ht, hdig, big_print_hex_loop_eq l h]
  simp

theorem value_split (a : BigInt) (h : 1 ≤ a.len) :
    a.value = limbSum a.limb (a.len - 1)
      + a.limb.getD (a.len - 1) 0 * 2 ^ (32 * (a.len - 1)) := by
  unfold BigInt.value
  obtain ⟨n, hn⟩ : ∃ n, a.len = n + 1 := ⟨a.len - 1, by omega⟩
  rw [hn]
  rfl

theorem big_is_zero_iff (a : BigInt) (hn : a.Normalized) :
    big_is_zero a = true ↔ a.value = 0 := by
  obtain ⟨h1, h2⟩ := hn
  have hs := value_split a h1
  constructor
  · intro hz
    simp only [big_is_zero, Bool.or_eq_true, beq_iff_eq, Bool.and_eq_true] at hz
    rcases hz with hz | ⟨hz1, hz2⟩
    · omega
    · have e : a.len - 1 = 0 := by omega
      rw [hs, e, hz2]
      rfl
  · intro hv
    rw [hs] at hv
    have ht : a.limb.getD (a.len - 1) 0 = 0 := by
      by_contra hne
      have : 0 < a.limb.getD (a.len - 1) 0 * 2 ^ (32 * (a.len - 1)) :=
        Nat.mul_pos (by omega) (by positivity)
      omega
    have hl : a.len = 1 := by
      rcases h2 with h2 | h2
      · exact h2
      · exact absurd ht h2
    have e : a.len - 1 = 0 := by omega
    rw [e] at ht
    unfold big_is_zero
    rw [hl, ht]
    rfl

theorem top_ne_zero_of_value (a : BigInt) (hn : a.Normalized) (hv : a.value ≠ 0) :
    a.limb.getD (a.len - 1) 0 ≠ 0 := by
  rcases hn.2 with h | h
  · intro ht
    apply hv
    have e : a.len - 1 = 0 := by omega
    rw [value_split a hn.1, ht, e]
    rfl
  · exact h

theorem big_print_hex_of_ne_zero (a : BigInt) (hwf : a.WF) (hn : a.Normalized)
    (hv : a.value ≠ 0) :
    big_print_hex a = "0x".toList
      ++ (hexNumeral (a.limb.getD (a.len - 1) 0) ++ big_print_hex_loop a.limb (a.len - 1)) := by
  have hz : big_is_zero a = false := by
    cases hb : big_is_zero a with
    | false => rfl
    | true => exact absurd ((big_is_zero_iff a hn).1 hb) hv
  unfold big_print_hex
  rw [hz]
  simp only [Bool.false_eq_true, if_false]
  rw [printf_X_eq _ (getD_lt_of_mem _ hwf.2 _)]

/-- The renderer writes `0x` and the canonical hexadecimal numeral of the value. -/
theorem big_print_hex_eq (a : BigInt) (hwf : a.WF) (hn : a.Normalized) :
    big_print_hex a = "0x".toList ++ hexNumeral a.value := by
  by_cases hv : a.value = 0
  · have hz := (big_is_zero_iff a hn).2 hv
    unfold big_print_hex
    rw [hz, hv]
    rfl
  · rw [big_print_hex_of_ne_zero a hwf hn hv]
    congr 1
    rw [value_split a hn.1]
    exact (hexNumeral_words a.limb (getD_lt_of_mem _ hwf.2) _ _
      (top_ne_zero_of_value a hn hv)).symm

theorem hexNumeral_inj (v w : Nat) (h : hexNumeral v = hexNumeral w) : v = w := by
  have key : ∀ x, x ≠ 0 → hexNumeral x ≠ ['0'] := by
    intro x hx hc
    unfold hexNumeral at hc
    rw [if_neg hx] at hc
    have h1 : ((Nat.digits 16 x).reverse).map hexChar = [0].map hexChar := by
      rw [hc]; rfl
    have h2 := map_hexChar_inj _ [0]
      (fun d hd => Nat.digits_lt_base (by decide) (List.mem_reverse.1 hd))
      (by decide) h1
    have h3 : Nat.digits 16 x = [0] := by
      have := congrArg List.reverse h2
      simpa using this
    have h4 := Nat.getLast_digit_ne_zero 16 hx
    simp [h3] at h4
  by_cases hv : v = 0
  · by_cases hw : w = 0
    · rw [hv, hw]
    · exfalso
      apply key w hw
      rw [← h, hv]
      rfl
  · by_cases hw : w = 0
    · exfalso
      apply key v hv
      rw [h, hw]
      rfl
    · unfold hexNumeral at h
      rw [if_neg hv, if_neg hw] at h
      have h2 := map_hexChar_inj _ _
        (fun d hd => Nat.digits_lt_base (by decide) (List.mem_reverse.1 hd))
        (fun d hd => Nat.digits_lt_base (by decide) (List.mem_reverse.1 hd)) h
      have h3 : Nat.digits 16 v = Nat.digits 16 w := by
        have := congrArg List.reverse h2
        simpa using this
      rw [← Nat.ofDigits_digits 16 v, ← Nat.ofDigits_digits 16 w, h3]

/-! ## Uniqueness of the representation -/

theorem split_unique (S1 S2 x1 x2 P : Nat) (h1 : S1 < P) (h2 : S2 < P)
    (h : S1 + x1 * P = S2 + x2 * P) : S1 = S2 ∧ x1 = x2 := by
  have hP : 0 < P := by omega
  have hx : x1 = x2 := by
    have e1 : (S1 + x1 * P) / P = x1 := by
      rw [Nat.add_mul_div_right _ _ hP, Nat.div_eq_of_lt h1, Nat.zero_add]
    have e2 : (S2 + x2 * P) / P = x2 := by
      rw [Nat.add_mul_div_right _ _ hP, Nat.div_eq_of_lt h2, Nat.zero_add]
    rw [← e1, ← e2, h]
  subst hx
  exact ⟨by omega, rfl⟩

theorem limbSum_inj (l1 l2 : List Nat) (h1 : ∀ k, l1.getD k 0 < U32)
    (h2 : ∀ k, l2.getD k 0 < U32) (n : Nat) (h : limbSum l1 n = limbSum l2 n) :
    ∀ k, k < n → l1.getD k 0 = l2.getD k 0 := by
  induction n with
  | zero => intro k hk; omega
  | succ n ih =>
    simp only [limbSum] at h
    obtain ⟨e1, e2⟩ := split_unique _ _ _ _ _ (limbSum_lt l1 h1 n) (limbSum_lt l2 h2 n) h
    intro k hk
    by_cases hkn : k = n
    · rw [hkn]; exact e2
    · exact ih e1 k (by omega)

theorem list_eq_of_getD (l1 l2 : List Nat) (hl : l1.length = l2.length)
    (h : ∀ k, k < l1.length → l1.getD k 0 = l2.getD k 0) : l1 = l2 := by
  apply List.ext_getElem hl
  intro k hk1 hk2
  have := h k hk1
  rwa [List.getD_eq_getElem _ _ hk1, List.getD_eq_getElem _ _ hk2] at this

theorem value_ge_of_top (a : BigInt) (h1 : 1 ≤ a.len)
    (ht : a.limb.getD (a.len - 1) 0 ≠ 0) : 2 ^ (32 * (a.len - 1)) ≤ a.value := by
  rw [value_split a h1]
  have : 1 * 2 ^ (32 * (a.len - 1))
      ≤ a.limb.getD (a.len - 1) 0 * 2 ^ (32 * (a.len - 1)) :=
    Nat.mul_le_mul_right _ (by omega)
  omega

theorem normalized_len_le (a b : BigInt) (ha : a.WF) (hb : b.Normalized)
    (h1 : 1 ≤ a.len) (hv : a.value = b.value) : b.len ≤ a.len := by
  by_contra hlt
  have hb1 : b.len ≠ 1 := by omega
  have ht : b.limb.getD (b.len - 1) 0 ≠ 0 := by
    rcases hb.2 with h | h
    · exact absurd h hb1
    · exact h
  have hge := value_ge_of_top b hb.1 ht
  have hlt2 : a.value < 2 ^ (32 * a.len) := limbSum_lt a.limb (getD_lt_of_mem _ ha.2) a.len
  have hpow : 2 ^ (32 * a.len) ≤ 2 ^ (32 * (b.len - 1)) :=
    Nat.pow_le_pow_right (by decide) (by omega)
  omega

/-- Two normalized, well-formed `BigInt`s of equal value have the same `len`
and the same words. -/
theorem normalized_unique (a b : BigInt) (ha : a.WF) (hb : b.WF) (na : a.Normalized)
    (nb : b.Normalized) (hv : a.value = b.value) : a.len = b.len ∧ a.words = b.words := by
  have l1 := normalized_len_le a b ha nb na.1 hv
  have l2 := normalized_len_le b a hb na nb.1 hv.symm
  have hl : a.len = b.len := by omega
  refine ⟨hl, ?_⟩
  have hg := limbSum_inj a.limb b.limb (getD_lt_of_mem _ ha.2) (getD_lt_of_mem _ hb.2) a.len
    (by
      have := hv
      unfold BigInt.value at this
      rw [this, hl])
  unfold BigInt.words
  apply List.ext_getElem
  · simp only [List.length_take]
    have := ha.1
    have := hb.1
    omega
  · intro k hk1 hk2
    simp only [List.length_take] at hk1 hk2
    have hka : k < a.limb.length := by have := ha.1; omega
    have hkb : k < b.limb.length := by have := hb.1; omega
    have := hg k (by omega)
    rw [List.getD_eq_getElem a.limb 0 hka, List.getD_eq_getElem b.limb 0 hkb] at this
    simpa using this

theorem words_of_value_zero (a : BigInt) (ha : a.WF) (na : a.Normalized)
    (hv : a.value = 0) : a.len = 1 ∧ a.words = [0] := by
  have h := normalized_unique a ⟨[0], 1⟩ ha (by decide) na (by decide) (by rw [hv]; rfl)
  exact ⟨h.1, h.2⟩

theorem big_mul_normalized (A B : BigInt) (h : 1 ≤ A.len + B.len) :
    (big_mul A B).Normalized := by
  unfold big_mul
  exact big_normalize_normalized _ h

/-- The two orders of the operands fill the same block. -/
theorem big_mul_comm_eq (A B : BigInt) (hA : A.WF) (hB : B.WF) :
    big_mul A B = big_mul B A := by
  obtain ⟨a1, a2, a3⟩ := big_mul_block A B hA.2 hB.2
  obtain ⟨b1, b2, b3⟩ := big_mul_block B A hB.2 hA.2
  have hlen : A.len + B.len = B.len + A.len := Nat.add_comm _ _
  have hblk : big_mul_outer A.limb B.limb B.len A.len 0 (big_create (A.len + B.len)).limb
      = big_mul_outer B.limb A.limb A.len B.len 0 (big_create (B.len + A.len)).limb := by
    apply list_eq_of_getD _ _ (by rw [a1, b1, hlen])
    intro k hk
    rw [a1] at hk
    exact limbSum_inj _ _ a2 b2 (A.len + B.len)
      (by rw [a3, hlen, b3, Nat.mul_comm]) k hk
  unfold big_mul
  simp only [big_create] at hblk ⊢
  rw [hblk, hlen]

/-! ## The entry point -/

theorem main_three_args (prog A B : List Char) : main [prog, A, B] = main_run [] A B := by
  simp [main]

theorem main_run_valid (out A B : List Char) (hA : IsDecString A) (hB : IsDecString B) :
    main_run out A B =
      { stdout := out ++ (A ++ " (dec) * ".toList ++ B ++ " (dec) = ".toList)
          ++ ("0x".toList ++ hexNumeral (decValue A * decValue B)) ++ "\n".toList
        stderr := []
        status := 0 } := by
  obtain ⟨a, ha, wa, _, va⟩ := big_from_dec_string_spec A hA
  obtain ⟨b, hb, wb, nb, vb⟩ := big_from_dec_string_spec B hB
  have hn : (big_mul a b).Normalized := big_mul_normalized a b (by have := nb.1; omega)
  simp only [main_run, ha, hb]
  rw [big_print_hex_eq _ (big_mul_WF a b wa wb) hn, big_mul_value_eq a b wa wb, va, vb]

set_option maxRecDepth 100000 in
theorem parse_zero : big_from_dec_string "0".toList = some ⟨[0], 1⟩ := by
  decide

set_option maxRecDepth 100000 in
theorem parse_one : big_from_dec_string "1".toList = some ⟨[1], 1⟩ := by
  decide

set_option maxRecDepth 100000 in
theorem zero_times_example :
    ((big_from_dec_string "999999999999999999".toList).map
      fun b => big_print_hex (big_mul ⟨[0], 1⟩ b)) = some "0x0".toList := by
  decide

/-! ## The claims -/

/-- C1: for every pair of well-formed operands, normalized or not, `big_mul`
returns a `BigInt` whose value, the sum of `limb[i] * 2^(32*i)` over its `len`
words, is exactly the product of the values of the operands (the operands
need not even have a word). -/
theorem big_mul_value (A B : BigInt) (hA : A.WF) (hB : B.WF) :
    (big_mul A B).value = A.value * B.value :=
  big_mul_value_eq A B hA hB

theorem big_mul_value_witness :
    (BigInt.mk [4294967295, 4294967295, 0] 3).WF ∧ (BigInt.mk [4294967295, 7] 2).WF ∧
    (big_mul ⟨[4294967295, 4294967295, 0], 3⟩ ⟨[4294967295, 7], 2⟩).value
      = (BigInt.mk [4294967295, 4294967295, 0] 3).value * (BigInt.mk [4294967295, 7] 2).value :=
  ⟨by decide, by decide, big_mul_value _ _ (by decide) (by decide)⟩

/-- C2: for every non-empty string of ASCII decimal digits, of any length,
`big_from_dec_string` returns a `BigInt` whose value is the number the string
denotes in base 10. -/
theorem big_from_dec_string_value (s : List Char) (h : IsDecString s) :
    ∃ a, big_from_dec_string s = some a ∧ a.value = decValue s := by
  obtain ⟨a, h1, _, _, h2⟩ := big_from_dec_string_spec s h
  exact ⟨a, h1, h2⟩

theorem big_from_dec_string_value_witness :
    IsDecString "0018446744073709551616".toList ∧
    ∃ a, big_from_dec_string "0018446744073709551616".toList = some a
      ∧ a.value = decValue "0018446744073709551616".toList :=
  ⟨by decide, big_from_dec_string_value _ (by decide)⟩

/-- C3: round trip.  For every natural number `V` and every decimal
representation `s` of `V`, with or without leading zeros, parsing `s` and
rendering the result writes `0x` followed by the canonical uppercase
hexadecimal numeral of `V`, which is `0x0` when `V = 0`. -/
theorem parse_render_roundtrip (V : Nat) (s : List Char) (h : IsDecString s)
    (hV : decValue s = V) :
    ∃ a, big_from_dec_string s = some a
      ∧ big_print_hex a = "0x".toList ++ hexNumeral V
      ∧ (V = 0 → big_print_hex a = "0x0".toList) := by
  obtain ⟨a, h1, w, n, h2⟩ := big_from_dec_string_spec s h
  have h3 : big_print_hex a = "0x".toList ++ hexNumeral V := by
    rw [big_print_hex_eq a w n, h2, hV]
  refine ⟨a, h1, h3, ?_⟩
  intro h0
  rw [h3, h0]
  rfl

theorem parse_render_roundtrip_witness :
    IsDecString "000255".toList ∧ decValue "000255".toList = 255 ∧
    ∃ a, big_from_dec_string "000255".toList = some a
      ∧ big_print_hex a = "0x".toList ++ hexNumeral 255
      ∧ (255 = 0 → big_print_hex a = "0x0".toList) :=
  ⟨by decide, by decide, parse_render_roundtrip 255 _ (by decide) (by decide)⟩

/-- C4: given exactly two positional arguments that are valid decimal strings
`A` and `B`, `main` writes to standard output the single line
`A (dec) * B (dec) = 0x<HEX>` and a newline, with `A` and `B` verbatim and
`<HEX>` the canonical uppercase hexadecimal numeral of the product, writes
nothing to standard error and returns 0; the arguments `4294967295` and `2`
give `0x1FFFFFFFE`. -/
theorem main_two_args (prog A B : List Char) (hA : IsDecString A) (hB : IsDecString B) :
    main [prog, A, B] =
      { stdout := A ++ " (dec) * ".toList ++ B ++ " (dec) = ".toList
          ++ ("0x".toList ++ hexNumeral (decValue A * decValue B)) ++ "\n".toList
        stderr := []
        status := 0 } ∧
    main [prog, "4294967295".toList, "2".toList] =
      { stdout := "4294967295 (dec) * 2 (dec) = 0x1FFFFFFFE\n".toList
        stderr := []
        status := 0 } := by
  constructor
  · rw [main_three_args, main_run_valid [] A B hA hB]
    rfl
  · rw [main_three_args]
    rfl

theorem main_two_args_witness :
    IsDecString "00100000".toList ∧ IsDecString "100000".toList ∧
    main ["big_mult".toList, "00100000".toList, "100000".toList] =
      { stdout := "00100000".toList ++ " (dec) * ".toList ++ "100000".toList
          ++ " (dec) = ".toList
          ++ ("0x".toList
            ++ hexNumeral (decValue "00100000".toList * decValue "100000".toList))
          ++ "\n".toList
        stderr := []
        status := 0 } :=
  ⟨by decide, by decide, (main_two_args _ _ _ (by decide) (by decide)).1⟩

/-- C5: normalization invariant.  For every valid decimal string the parser,
and for every pair of operands with at least one word each the multiplier,
returns a `BigInt` with `len ≥ 1` whose most significant word `limb[len - 1]`
is nonzero unless `len` is exactly 1. -/
theorem normalization_invariant (s : List Char) (A B : BigInt) (hs : IsDecString s)
    (hA : 1 ≤ A.len) (hB : 1 ≤ B.len) :
    (∃ a, big_from_dec_string s = some a
      ∧ 1 ≤ a.len ∧ (a.len = 1 ∨ a.limb.getD (a.len - 1) 0 ≠ 0)) ∧
    (1 ≤ (big_mul A B).len ∧
      ((big_mul A B).len = 1
        ∨ (big_mul A B).limb.getD ((big_mul A B).len - 1) 0 ≠ 0)) := by
  constructor
  · obtain ⟨a, h1, _, h2, _⟩ := big_from_dec_string_spec s hs
    exact ⟨a, h1, h2⟩
  · exact big_mul_normalized A B (by omega)

theorem normalization_invariant_witness :
    IsDecString "0004294967296".toList ∧
    1 ≤ (BigInt.mk [0, 0, 0] 3).len ∧ 1 ≤ (BigInt.mk [5, 0] 2).len ∧
    ((∃ a, big_from_dec_string "0004294967296".toList = some a
      ∧ 1 ≤ a.len ∧ (a.len = 1 ∨ a.limb.getD (a.len - 1) 0 ≠ 0)) ∧
    (1 ≤ (big_mul ⟨[0, 0, 0], 3⟩ ⟨[5, 0], 2⟩).len ∧
      ((big_mul ⟨[0, 0, 0], 3⟩ ⟨[5, 0], 2⟩).len = 1
        ∨ (big_mul ⟨[0, 0, 0], 3⟩ ⟨[5, 0], 2⟩).limb.getD
            ((big_mul ⟨[0, 0, 0], 3⟩ ⟨[5, 0], 2⟩).len - 1) 0 ≠ 0))) :=
  ⟨by decide, by decide, by decide,
    normalization_invariant _ _ _ (by decide) (by decide) (by decide)⟩

/-- C6: `big_from_dec_string` takes the fatal-error branch, returning no
`BigInt`, exactly when its input is the empty string or contains a character
that is not an ASCII decimal digit; the empty string, `12a3`, `-5` and `+5`
are rejected, and a string is accepted exactly when it is non-empty and made
of digits only. -/
theorem big_from_dec_string_fails_iff (s : List Char) :
    (big_from_dec_string s = none ↔ (s = [] ∨ ∃ c ∈ s, ¬ IsDecDigit c)) ∧
    big_from_dec_string "".toList = none ∧
    big_from_dec_string "12a3".toList = none ∧
    big_from_dec_string "-5".toList = none ∧
    big_from_dec_string "+5".toList = none ∧
    ((big_from_dec_string s).isSome = true ↔ (s ≠ [] ∧ ∀ c ∈ s, IsDecDigit c)) := by
  have hiff : big_from_dec_string s = none ↔ ¬ IsDecString s := by
    constructor
    · intro hn hs
      obtain ⟨a, ha, _⟩ := big_from_dec_string_spec s hs
      rw [ha] at hn
      cases hn
    · exact big_from_dec_string_none s
  refine ⟨?_, by decide, by decide, by decide, by decide, ?_⟩
  · rw [hiff]
    unfold IsDecString
    constructor
    · intro h
      by_cases h0 : s = []
      · exact Or.inl h0
      · right
        by_contra hc
        apply h
        refine ⟨h0, fun c hcs => ?_⟩
        by_contra hd
        exact hc ⟨c, hcs, hd⟩
    · rintro (h | ⟨c, hcs, hd⟩) ⟨h0, hall⟩
      · exact h0 h
      · exact hd (hall c hcs)
  · constructor
    · intro h
      by_contra hs
      rw [big_from_dec_string_none s hs] at h
      cases h
    · intro hs
      obtain ⟨a, ha, _⟩ := big_from_dec_string_spec s hs
      rw [ha]
      rfl

/-- C7: for every well-formed, normalized `BigInt` with `len ≥ 1`,
`big_print_hex` writes `0x0` when the value is 0 and otherwise `0x`, the top
word in uppercase hexadecimal without leading zeros and then every lower word,
most significant first, as exactly 8 zero-padded digits; the text is `0x`
followed by the canonical hexadecimal numeral of the value, so two such
`BigInt`s are rendered alike only if their values are equal. -/
theorem big_print_hex_canonical (a : BigInt) (hwf : a.WF) (hn : a.Normalized) :
    (a.value = 0 → big_print_hex a = "0x0".toList) ∧
    (a.value ≠ 0 → big_print_hex a = "0x".toList ++ hexByWords a) ∧
    (∀ i, i < a.len - 1 → (hexPadded8 (a.limb.getD i 0)).length = 8) ∧
    big_print_hex a = "0x".toList ++ hexNumeral a.value ∧
    (∀ b : BigInt, b.WF → b.Normalized →
      big_print_hex a = big_print_hex b → a.value = b.value) := by
  refine ⟨?_, ?_, ?_, big_print_hex_eq a hwf hn, ?_⟩
  · intro hv
    rw [big_print_hex_eq a hwf hn, hv]
    rfl
  · intro hv
    rw [big_print_hex_of_ne_zero a hwf hn hv,
      big_print_hex_loop_words _ (getD_lt_of_mem _ hwf.2)]
    rfl
  · intro i _
    exact hexPadded8_length _ (getD_lt_of_mem _ hwf.2 i)
  · intro b hb nb h
    rw [big_print_hex_eq a hwf hn, big_print_hex_eq b hb nb] at h
    exact hexNumeral_inj _ _ (List.append_cancel_left h)

theorem big_print_hex_canonical_witness :
    (BigInt.mk [43981, 0, 18, 0] 3).WF ∧ (BigInt.mk [43981, 0, 18, 0] 3).Normalized ∧
    big_print_hex ⟨[43981, 0, 18, 0], 3⟩
      = "0x".toList ++ hexNumeral (BigInt.mk [43981, 0, 18, 0] 3).value :=
  ⟨by decide, by decide, (big_print_hex_canonical _ (by decide) (by decide)).2.2.2.1⟩

/-- C8: commutativity.  For every pair of valid decimal strings, multiplying
the parsed operands in either order gives the same `BigInt`, with the same
`len` and the same words, hence the same hexadecimal text. -/
theorem big_mul_comm (A B : List Char) (hA : IsDecString A) (hB : IsDecString B) :
    ∃ a b, big_from_dec_string A = some a ∧ big_from_dec_string B = some b ∧
      big_mul a b = big_mul b a ∧
      (big_mul a b).len = (big_mul b a).len ∧
      (big_mul a b).words = (big_mul b a).words ∧
      big_print_hex (big_mul a b) = big_print_hex (big_mul b a) := by
  obtain ⟨a, ha, wa, _, _⟩ := big_from_dec_string_spec A hA
  obtain ⟨b, hb, wb, _, _⟩ := big_from_dec_string_spec B hB
  have h := big_mul_comm_eq a b wa wb
  exact ⟨a, b, ha, hb, h, by rw [h], by rw [h], by rw [h]⟩

theorem big_mul_comm_witness :
    IsDecString "123456789012345678901234567890".toList ∧ IsDecString "0042".toList ∧
    ∃ a b, big_from_dec_string "123456789012345678901234567890".toList = some a ∧
      big_from_dec_string "0042".toList = some b ∧
      big_mul a b = big_mul b a ∧
      (big_mul a b).len = (big_mul b a).len ∧
      (big_mul a b).words = (big_mul b a).words ∧
      big_print_hex (big_mul a b) = big_print_hex (big_mul b a) :=
  ⟨by decide, by decide, big_mul_comm _ _ (by decide) (by decide)⟩

/-- C9: multiplication by zero.  For every valid decimal string `A`, the
product of the parsed `A` and the parsed `0`, in either order, is the
single-word `BigInt` with `len = 1` and word 0, and is rendered as `0x0`;
so is `0` times `999999999999999999`. -/
theorem big_mul_zero (A : List Char) (hA : IsDecString A) :
    ∃ a z, big_from_dec_string A = some a ∧ big_from_dec_string "0".toList = some z ∧
      ((big_mul a z).len = 1 ∧ (big_mul a z).words = [0]
        ∧ big_print_hex (big_mul a z) = "0x0".toList) ∧
      ((big_mul z a).len = 1 ∧ (big_mul z a).words = [0]
        ∧ big_print_hex (big_mul z a) = "0x0".toList) ∧
      ((big_from_dec_string "999999999999999999".toList).map
        fun b => big_print_hex (big_mul z b)) = some "0x0".toList := by
  obtain ⟨a, ha, wa, na, _⟩ := big_from_dec_string_spec A hA
  have key : ∀ p : BigInt, p.WF → p.Normalized → p.value = 0 →
      p.len = 1 ∧ p.words = [0] ∧ big_print_hex p = "0x0".toList := by
    intro p wp np vp
    obtain ⟨h1, h2⟩ := words_of_value_zero p wp np vp
    refine ⟨h1, h2, ?_⟩
    rw [big_print_hex_eq p wp np, vp]
    rfl
  have wz : (BigInt.mk [0] 1).WF := by decide
  refine ⟨a, ⟨[0], 1⟩, ha, parse_zero, ?_, ?_, zero_times_example⟩
  · apply key _ (big_mul_WF _ _ wa wz) (big_mul_normalized _ _ (by have := na.1; omega))
    rw [big_mul_value_eq _ _ wa wz]
    exact Nat.mul_zero _
  · apply key _ (big_mul_WF _ _ wz wa) (big_mul_normalized _ _ (by have := na.1; omega))
    rw [big_mul_value_eq _ _ wz wa]
    exact Nat.zero_mul _

theorem big_mul_zero_witness :
    IsDecString "340282366920938463463374607431768211456".toList ∧
    ∃ a z, big_from_dec_string "340282366920938463463374607431768211456".toList = some a ∧
      big_from_dec_string "0".toList = some z ∧
      ((big_mul a z).len = 1 ∧ (big_mul a z).words = [0]
        ∧ big_print_hex (big_mul a z) = "0x0".toList) ∧
      ((big_mul z a).len = 1 ∧ (big_mul z a).words = [0]
        ∧ big_print_hex (big_mul z a) = "0x0".toList) ∧
      ((big_from_dec_string "999999999999999999".toList).map
        fun b => big_print_hex (big_mul z b)) = some "0x0".toList :=
  ⟨by decide, big_mul_zero _ (by decide)⟩

/-- C10: multiplicative identity.  For every valid decimal string `A`, the
product of the parsed `A` and the parsed `1` has the same `len` and the same
words as the parsed `A`, and is rendered as the parsed `A` is. -/
theorem big_mul_one (A : List Char) (hA : IsDecString A) :
    ∃ a o, big_from_dec_string A = some a ∧ big_from_dec_string "1".toList = some o ∧
      (big_mul a o).len = a.len ∧ (big_mul a o).words = a.words ∧
      big_print_hex (big_mul a o) = big_print_hex a := by
  obtain ⟨a, ha, wa, na, _⟩ := big_from_dec_string_spec A hA
  have wo : (BigInt.mk [1] 1).WF := by decide
  have wm := big_mul_WF a ⟨[1], 1⟩ wa wo
  have nm : (big_mul a ⟨[1], 1⟩).Normalized :=
    big_mul_normalized _ _ (by have := na.1; omega)
  have hv : (big_mul a ⟨[1], 1⟩).value = a.value := by
    rw [big_mul_value_eq _ _ wa wo]
    exact Nat.mul_one _
  obtain ⟨h1, h2⟩ := normalized_unique _ _ wm wa nm na hv
  refine ⟨a, ⟨[1], 1⟩, ha, parse_one, h1, h2, ?_⟩
  rw [big_print_hex_eq _ wm nm, big_print_hex_eq _ wa na, hv]

theorem big_mul_one_witness :
    IsDecString "0018446744073709551615".toList ∧
    ∃ a o, big_from_dec_string "0018446744073709551615".toList = some a ∧
      big_from_dec_string "1".toList = some o ∧
      (big_mul a o).len = a.len ∧ (big_mul a o).words = a.words ∧
      big_print_hex (big_mul a o) = big_print_hex a :=
  ⟨by decide, big_mul_one _ (by decide)⟩

/-! ## Leading zeros, normalisation and the canonical form -/

theorem parse_zero_step :
    big_add_small (big_mul_small ⟨[0], 1⟩ 10) (digit_of '0') = ⟨[0], 1⟩ := by
  decide

theorem big_from_dec_string_loop_zeros (k : Nat) (s : List Char) :
    big_from_dec_string_loop (List.replicate k '0' ++ s) ⟨[0], 1⟩
      = big_from_dec_string_loop s ⟨[0], 1⟩ := by
  induction k with
  | zero => rfl
  | succ k ih =>
    rw [List.replicate_succ, List.cons_append, big_from_dec_string_loop, parse_zero_step, ih]

theorem isDecString_zeros (k : Nat) (s : List Char) (h : IsDecString s) :
    IsDecString (List.replicate k '0' ++ s) := by
  refine ⟨?_, ?_⟩
  · intro hc
    exact h.1 (List.append_eq_nil.1 hc).2
  · intro c hc
    rcases List.mem_append.1 hc with h1 | h1
    · rw [(List.mem_replicate.1 h1).2]
      decide
    · exact h.2 c h1

theorem big_from_dec_string_zeros (k : Nat) (s : List Char) (h : IsDecString s) :
    big_from_dec_string (List.replicate k '0' ++ s) = big_from_dec_string s := by
  have h1 := (is_valid_dec_string_iff s).2 h
  have h2 := (is_valid_dec_string_iff _).2 (isDecString_zeros k s h)
  simp only [big_from_dec_string, h1, h2]
  have e : ({ limb := (big_create 1).limb.set 0 0, len := (big_create 1).len } : BigInt)
      = ⟨[0], 1⟩ := rfl
  rw [e, big_from_dec_string_loop_zeros]

set_option maxRecDepth 100000 in
theorem parse_000123 :
    big_from_dec_string "000123".toList = big_from_dec_string "123".toList := by
  decide

theorem big_normalize_twice (a : BigInt) : big_normalize (big_normalize a) = big_normalize a := by
  unfold big_normalize
  simp only
  rw [big_normalize_len_fixed]
  rcases big_normalize_len_top a.limb a.len with h | h
  · exact Or.inl h
  · exact Or.inr h

theorem big_normalize_len_changed (l : List Nat) (n : Nat)
    (h : big_normalize_len l n ≠ n) : 1 < n ∧ l.getD (n - 1) 0 = 0 := by
  match n, h with
  | 0, h => exact absurd rfl h
  | 1, h => exact absurd rfl h
  | n + 2, h =>
    refine ⟨by omega, ?_⟩
    show l.getD (n + 1) 0 = 0
    by_contra hne
    apply h
    rw [big_normalize_len, if_neg hne]

/-! ## The growth primitives and invariant I3 -/

theorem grow_with_carry_pos (limb : List Nat) (len carry : Nat) (h : carry ≠ 0) :
    grow_with_carry limb len carry = ⟨limb.take len ++ [carry % U32], len + 1⟩ := by
  unfold grow_with_carry
  rw [if_pos h]

theorem grow_with_carry_zero (limb : List Nat) (len : Nat) :
    grow_with_carry limb len 0 = ⟨limb, len⟩ := by
  unfold grow_with_carry
  simp

theorem top_ne_zero_of_le (l : List Nat) (hl : ∀ k, l.getD k 0 < U32) (n : Nat)
    (hn : 1 ≤ n) (h : 2 ^ (32 * (n - 1)) ≤ limbSum l n) : l.getD (n - 1) 0 ≠ 0 := by
  obtain ⟨m, rfl⟩ : ∃ m, n = m + 1 := ⟨n - 1, by omega⟩
  intro h0
  simp only [Nat.add_sub_cancel] at h h0
  simp only [limbSum, h0, Nat.zero_mul, Nat.add_zero] at h
  have := limbSum_lt l hl m
  omega

/-- What the tail `grow_with_carry` leaves, in terms of the sum `v` it
completes: a `BigInt` that satisfies I3 as soon as `v` is at least the least
value with `len` words, or `len` is 1. -/
theorem grow_with_carry_normalized (limb : List Nat) (len carry : Nat)
    (hlen : len ≤ limb.length) (hl : ∀ k, limb.getD k 0 < U32) (hc : carry < U32)
    (h1 : 1 ≤ len)
    (hv : len = 1 ∨ 2 ^ (32 * (len - 1)) ≤ limbSum limb len + carry * 2 ^ (32 * len)) :
    (grow_with_carry limb len carry).Normalized := by
  by_cases h0 : carry = 0
  · subst h0
    rw [grow_with_carry_zero]
    refine ⟨h1, ?_⟩
    rcases hv with hv | hv
    · exact Or.inl hv
    · right
      simp only [Nat.zero_mul, Nat.add_zero] at hv
      exact top_ne_zero_of_le limb hl len h1 hv
  · rw [grow_with_carry_pos _ _ _ h0]
    refine ⟨by show 1 ≤ len + 1; omega, Or.inr ?_⟩
    show (limb.take len ++ [carry % U32]).getD (len + 1 - 1) 0 ≠ 0
    rw [Nat.add_sub_cancel, getD_take_append _ _ _ _ hlen, if_neg (by omega), if_pos rfl,
      Nat.mod_eq_of_lt hc]
    exact h0

theorem value_ge_of_normalized (a : BigInt) (hn : a.Normalized) :
    a.len = 1 ∨ 2 ^ (32 * (a.len - 1)) ≤ a.value := by
  rcases hn.2 with h | h
  · exact Or.inl h
  · exact Or.inr (value_ge_of_top a hn.1 h)

theorem big_mul_small_normalized (acc : BigInt) (k : Nat) (h : acc.WF) (hn : acc.Normalized)
    (hk : k < U32) (h0 : k ≠ 0 ∨ acc.len = 1) : (big_mul_small acc k).Normalized := by
  obtain ⟨g1, g2, g3, _, g5⟩ := big_mul_small_loop_spec k hk acc.len 0 acc.limb 0
    (by have := h.1; omega) (getD_lt_of_mem _ h.2) (by decide)
  simp only [limbSum, Nat.zero_add, Nat.zero_mul, Nat.mul_zero, Nat.add_zero] at g5
  unfold big_mul_small
  apply grow_with_carry_normalized _ _ _ (by rw [g1]; exact h.1) g2 g3 hn.1
  rcases value_ge_of_normalized acc hn with hv | hv
  · exact Or.inl hv
  · rcases h0 with h0 | h0
    · right
      rw [g5]
      have : 1 * limbSum acc.limb acc.len ≤ k * limbSum acc.limb acc.len :=
        Nat.mul_le_mul_right _ (by omega)
      unfold BigInt.value at hv
      omega
    · exact Or.inl h0

theorem big_add_small_normalized (acc : BigInt) (k : Nat) (h : acc.WF) (hn : acc.Normalized)
    (hk : k < U32) : (big_add_small acc k).Normalized := by
  obtain ⟨g1, g2, g3, _, g5⟩ := big_add_small_loop_spec acc.len 0 acc.limb k
    (by have := h.1; omega) (getD_lt_of_mem _ h.2) hk
  simp only [Nat.zero_add, Nat.mul_zero, pow_zero, Nat.mul_one] at g5
  unfold big_add_small
  apply grow_with_carry_normalized _ _ _ (by rw [g1]; exact h.1) g2 g3 hn.1
  rcases value_ge_of_normalized acc hn with hv | hv
  · exact Or.inl hv
  · right
    rw [g5]
    unfold BigInt.value at hv
    omega

theorem carry_ne_zero_iff (S c P v : Nat) (hS : S < P) (h : S + c * P = v) :
    c ≠ 0 ↔ P ≤ v := by
  constructor
  · intro hc
    have : 1 * P ≤ c * P := Nat.mul_le_mul_right _ (by omega)
    omega
  · intro hP hc
    subst hc
    omega

theorem big_mul_small_carry_iff (acc : BigInt) (k : Nat) (h : acc.WF) (hk : k < U32) :
    (big_mul_small_loop k acc.len 0 acc.limb 0).2 ≠ 0
      ↔ 2 ^ (32 * acc.len) ≤ acc.value * k := by
  obtain ⟨_, g2, _, _, g5⟩ := big_mul_small_loop_spec k hk acc.len 0 acc.limb 0
    (by have := h.1; omega) (getD_lt_of_mem _ h.2) (by decide)
  simp only [limbSum, Nat.zero_add, Nat.zero_mul, Nat.mul_zero, Nat.add_zero] at g5
  rw [Nat.mul_comm k] at g5
  exact carry_ne_zero_iff _ _ _ _ (limbSum_lt _ g2 _) g5

theorem big_add_small_carry_iff (acc : BigInt) (k : Nat) (h : acc.WF) (hk : k < U32) :
    (big_add_small_loop acc.len 0 acc.limb k).2 ≠ 0
      ↔ 2 ^ (32 * acc.len) ≤ acc.value + k := by
  obtain ⟨_, g2, _, _, g5⟩ := big_add_small_loop_spec acc.len 0 acc.limb k
    (by have := h.1; omega) (getD_lt_of_mem _ h.2) hk
  simp only [Nat.zero_add, Nat.mul_zero, pow_zero, Nat.mul_one] at g5
  exact carry_ne_zero_iff _ _ _ _ (limbSum_lt _ g2 _) g5

/-- Every iteration of the loop of `big_mul_small` forms its sum without
wrapping. -/
theorem big_mul_small_log_spec (k : Nat) (hk : k < U32) :
    ∀ (r i : Nat) (limb : List Nat) (c : Nat),
      (∀ j, limb.getD j 0 < U32) → c < U32 →
      (big_mul_small_log k r i limb c).length = r ∧
      ∀ st ∈ big_mul_small_log k r i limb c,
        st.word * k + st.carry < U64 ∧ st.cur = st.word * k + st.carry := by
  intro r
  induction r with
  | zero =>
    intro i limb c _ _
    exact ⟨rfl, fun st hst => by simp [big_mul_small_log] at hst⟩
  | succ r ih =>
    intro i limb c hl hc
    have hlt : limb.getD i 0 * k + c < U64 := by
      have := mul_acc_lt 0 (limb.getD i 0) k c (by decide) (hl i) hk hc
      omega
    have hl1 : ∀ j, (limb.set i ((limb.getD i 0 * k + c) % U64 % U32)).getD j 0 < U32 := by
      intro j
      rw [getD_set]
      split
      · exact Nat.mod_lt _ (by decide)
      · exact hl j
    obtain ⟨g1, g2⟩ := ih (i + 1) (limb.set i ((limb.getD i 0 * k + c) % U64 % U32))
      ((limb.getD i 0 * k + c) % U64 / U32) hl1
      (by rw [Nat.mod_eq_of_lt hlt]; exact div_U32_lt _ hlt)
    simp only [big_mul_small_log, List.length_cons, List.mem_cons]
    refine ⟨by rw [g1], ?_⟩
    rintro st (rfl | hst)
    · exact ⟨hlt, Nat.mod_eq_of_lt hlt⟩
    · exact g2 st hst

/-! ## The iterations of the multiplier -/

/-- Every iteration of the inner loop of `big_mul`: the carry entering is a
32-bit value, the indices are inside the block, the sum does not wrap, and
the low and high halves of the sum go to `C[i + j]` and to the next carry. -/
theorem big_mul_inner_log_spec (a : Nat) (Bl : List Nat) (i L : Nat) (ha : a < U32)
    (hB : ∀ k, Bl.getD k 0 < U32) :
    ∀ (r j : Nat) (C : List Nat) (c : Nat),
      C.length = L → i + j + r ≤ L → (∀ k, C.getD k 0 < U32) → c < U32 →
      (big_mul_inner_log a Bl i r j C c).length = r ∧
      ∀ st ∈ big_mul_inner_log a Bl i r j C c,
        st.i = i ∧ j ≤ st.j ∧ st.j < j + r ∧ st.a_i = a ∧ st.b_j = Bl.getD st.j 0 ∧
        st.C.length = L ∧ st.carry < U32 ∧
        st.C.getD (st.i + st.j) 0 + st.a_i * st.b_j + st.carry < U64 ∧
        st.cur = st.C.getD (st.i + st.j) 0 + st.a_i * st.b_j + st.carry ∧
        st.C_out.getD (st.i + st.j) 0 = st.cur % U32 ∧ st.carry_out = st.cur / U32 := by
  intro r
  induction r with
  | zero =>
    intro j C c _ _ _ _
    exact ⟨rfl, fun st hst => by simp [big_mul_inner_log] at hst⟩
  | succ r ih =>
    intro j C c hL hb hC hc
    have hcur := mul_acc_eq (C.getD (i + j) 0) a (Bl.getD j 0) c (hC _) ha (hB _) hc
    have hlt := mul_acc_lt (C.getD (i + j) 0) a (Bl.getD j 0) c (hC _) ha (hB _) hc
    have hC1 : ∀ k, (C.set (i + j)
        ((C.getD (i + j) 0 + a * Bl.getD j 0 % U64 + c) % U64 % U32)).getD k 0 < U32 := by
      intro k
      rw [getD_set]
      split
      · exact Nat.mod_lt _ (by decide)
      · exact hC k
    obtain ⟨g1, g2⟩ := ih (j + 1)
      (C.set (i + j) ((C.getD (i + j) 0 + a * Bl.getD j 0 % U64 + c) % U64 % U32))
      ((C.getD (i + j) 0 + a * Bl.getD j 0 % U64 + c) % U64 / U32)
      (by rw [List.length_set]; exact hL) (by omega) hC1
      (by rw [hcur]; exact div_U32_lt _ hlt)
    simp only [big_mul_inner_log, List.length_cons, List.mem_cons]
    refine ⟨by rw [g1], ?_⟩
    rintro st (rfl | hst)
    · refine ⟨rfl, le_refl _, by show j < j + (r + 1); omega, rfl, rfl, hL, hc, hlt, hcur,
        ?_, rfl⟩
      exact getD_set_self _ _ _ (by omega)
    · obtain ⟨e1, e2, e3, e4⟩ := g2 st hst
      exact ⟨e1, by omega, by omega, e4⟩

/-- Every iteration of the outer loop of `big_mul`: the block has `L` words,
the word `C[i + m]` is still zero and the carry is a 32-bit value when the
store executes, and every iteration of the inner loop is as in
`big_mul_inner_log_spec`. -/
theorem big_mul_outer_log_spec (Al Bl : List Nat) (m L : Nat)
    (hA : ∀ k, Al.getD k 0 < U32) (hB : ∀ k, Bl.getD k 0 < U32) :
    ∀ (r i : Nat) (C : List Nat),
      C.length = L → i + r + m ≤ L → (∀ k, C.getD k 0 < U32) →
      (∀ k, i + m ≤ k → C.getD k 0 = 0) →
      (big_mul_outer_log Al Bl m r i C).length = r ∧
      ∀ o ∈ big_mul_outer_log Al Bl m r i C,
        i ≤ o.i ∧ o.i < i + r ∧ o.C.length = L ∧ o.carry < U32 ∧
        o.C.getD (o.i + m) 0 = 0 ∧ o.inner.length = m ∧
        ∀ st ∈ o.inner,
          st.i = o.i ∧ st.j < m ∧ st.a_i = Al.getD st.i 0 ∧ st.b_j = Bl.getD st.j 0 ∧
          st.C.length = L ∧ st.carry < U32 ∧
          st.C.getD (st.i + st.j) 0 + st.a_i * st.b_j + st.carry < U64 ∧
          st.cur = st.C.getD (st.i + st.j) 0 + st.a_i * st.b_j + st.carry ∧
          st.C_out.getD (st.i + st.j) 0 = st.cur % U32 ∧ st.carry_out = st.cur / U32 := by
  intro r
  induction r with
  | zero =>
    intro i C _ _ _ _
    exact ⟨rfl, fun o ho => by simp [big_mul_outer_log] at ho⟩
  | succ r ih =>
    intro i C hL hb hC hz
    obtain ⟨g1, g2, g3, g4, _⟩ :=
      big_mul_inner_spec (Al.getD i 0) Bl i L (hA i) hB m 0 C 0 hL (by omega) hC (by decide)
    obtain ⟨l1, l2⟩ :=
      big_mul_inner_log_spec (Al.getD i 0) Bl i L (hA i) hB m 0 C 0 hL (by omega) hC
        (by decide)
    have htop : (big_mul_inner (Al.getD i 0) Bl i m 0 C 0).1.getD (i + m) 0 = 0 := by
      rw [g4 (i + m) (by omega)]; exact hz _ (le_refl _)
    obtain ⟨t1, t2⟩ := ih (i + 1)
      ((big_mul_inner (Al.getD i 0) Bl i m 0 C 0).1.set (i + m)
        (((big_mul_inner (Al.getD i 0) Bl i m 0 C 0).1.getD (i + m) 0
          + (big_mul_inner (Al.getD i 0) Bl i m 0 C 0).2) % U64 % U32))
      (by rw [List.length_set]; exact g1) (by omega)
      (by
        intro k
        rw [getD_set]
        split
        · exact Nat.mod_lt _ (by decide)
        · exact g2 k)
      (by
        intro k hk
        rw [getD_set_ne _ _ _ _ (by omega), g4 k (by omega)]
        exact hz k (by omega))
    simp only [big_mul_outer_log, List.length_cons, List.mem_cons]
    refine ⟨by rw [t1], ?_⟩
    rintro o (rfl | ho)
    · refine ⟨le_refl _, by show i < i + (r + 1); omega, g1, g3, htop, l1, ?_⟩
      intro st hst
      obtain ⟨e1, _, e3, e4, e5⟩ := l2 st hst
      refine ⟨e1, by omega, ?_, e5⟩
      rw [e4, e1]
    · obtain ⟨e1, e2, e3⟩ := t2 o ho
      exact ⟨by omega, by omega, e3⟩

theorem big_mul_log_spec (A B : BigInt) (hA : A.WF) (hB : B.WF) :
    (big_mul_log A B).length = A.len ∧
    ∀ o ∈ big_mul_log A B,
      o.i < A.len ∧ o.C.length = A.len + B.len ∧ o.carry < U32 ∧
      o.C.getD (o.i + B.len) 0 = 0 ∧ o.inner.length = B.len ∧
      ∀ st ∈ o.inner,
        st.i = o.i ∧ st.j < B.len ∧ st.a_i = A.limb.getD st.i 0 ∧
        st.b_j = B.limb.getD st.j 0 ∧
        st.C.length = A.len + B.len ∧ st.carry < U32 ∧
        st.C.getD (st.i + st.j) 0 + st.a_i * st.b_j + st.carry < U64 ∧
        st.cur = st.C.getD (st.i + st.j) 0 + st.a_i * st.b_j + st.carry ∧
        st.C_out.getD (st.i + st.j) 0 = st.cur % U32 ∧ st.carry_out = st.cur / U32 := by
  obtain ⟨h1, h2⟩ := big_mul_outer_log_spec A.limb B.limb B.len (A.len + B.len)
    (getD_lt_of_mem _ hA.2) (getD_lt_of_mem _ hB.2) A.len 0 (big_create (A.len + B.len)).limb
    (by simp [big_create]) (by omega)
    (by intro k; simp only [big_create]; rw [getD_replicate_zero]; decide)
    (by intro k _; simp only [big_create]; rw [getD_replicate_zero])
  refine ⟨h1, ?_⟩
  intro o ho
  obtain ⟨_, e2, e3⟩ := h2 o ho
  exact ⟨by omega, e3⟩

/-! ## The claims, continued -/

/-- C11: leading zeros are absorbed.  For every valid decimal string `s` and
every `k`, parsing `k` characters `0` followed by `s` gives the same `BigInt`
as parsing `s`, with the same `len` and the same words; so do `000123` and
`123`. -/
theorem leading_zeros_absorbed (s : List Char) (k : Nat) (h : IsDecString s) :
    (∃ a b, big_from_dec_string s = some a ∧
      big_from_dec_string (List.replicate k '0' ++ s) = some b ∧
      b.len = a.len ∧ b.words = a.words ∧ b = a) ∧
    big_from_dec_string "000123".toList = big_from_dec_string "123".toList := by
  obtain ⟨a, ha, _⟩ := big_from_dec_string_spec s h
  refine ⟨⟨a, a, ha, ?_, rfl, rfl, rfl⟩, parse_000123⟩
  rw [big_from_dec_string_zeros k s h, ha]

theorem leading_zeros_absorbed_witness :
    IsDecString "4294967296".toList ∧
    ((∃ a b, big_from_dec_string "4294967296".toList = some a ∧
      big_from_dec_string (List.replicate 5 '0' ++ "4294967296".toList) = some b ∧
      b.len = a.len ∧ b.words = a.words ∧ b = a) ∧
    big_from_dec_string "000123".toList = big_from_dec_string "123".toList) :=
  ⟨by decide, leading_zeros_absorbed _ 5 (by decide)⟩

/-- C12: `big_normalize` is idempotent.  For every `BigInt`, normalizing twice
gives what normalizing once gives: the same `len` and the same words. -/
theorem big_normalize_idempotent (a : BigInt) :
    big_normalize (big_normalize a) = big_normalize a ∧
    (big_normalize (big_normalize a)).len = (big_normalize a).len ∧
    (big_normalize (big_normalize a)).words = (big_normalize a).words := by
  have h := big_normalize_twice a
  exact ⟨h, by rw [h], by rw [h]⟩

/-- C13: for every `BigInt` with `len ≥ 1`, `big_normalize` keeps the value
and the block, so the words of the result are a prefix of the words of the
argument; the result has `len ≥ 1` and a nonzero top word unless `len = 1`;
and `len` changes only if the top word of the argument was zero with
`len > 1`. -/
theorem big_normalize_correct (a : BigInt) (h : 1 ≤ a.len) :
    (big_normalize a).value = a.value ∧
    (big_normalize a).limb = a.limb ∧
    (big_normalize a).words <+: a.words ∧
    1 ≤ (big_normalize a).len ∧
    ((big_normalize a).len = 1
      ∨ (big_normalize a).limb.getD ((big_normalize a).len - 1) 0 ≠ 0) ∧
    ((big_normalize a).len ≠ a.len → 1 < a.len ∧ a.limb.getD (a.len - 1) 0 = 0) := by
  have hn := big_normalize_normalized a h
  refine ⟨big_normalize_value a, rfl, ?_, hn.1, hn.2, ?_⟩
  · exact List.take_prefix_take_left a.limb (big_normalize_len_le a.limb a.len)
  · intro hne
    exact big_normalize_len_changed a.limb a.len hne

theorem big_normalize_correct_witness :
    1 ≤ (BigInt.mk [7, 0, 9, 0, 0] 5).len ∧
    ((big_normalize ⟨[7, 0, 9, 0, 0], 5⟩).value = (BigInt.mk [7, 0, 9, 0, 0] 5).value ∧
    (big_normalize ⟨[7, 0, 9, 0, 0], 5⟩).limb = (BigInt.mk [7, 0, 9, 0, 0] 5).limb ∧
    (big_normalize ⟨[7, 0, 9, 0, 0], 5⟩).words <+: (BigInt.mk [7, 0, 9, 0, 0] 5).words ∧
    1 ≤ (big_normalize ⟨[7, 0, 9, 0, 0], 5⟩).len ∧
    ((big_normalize ⟨[7, 0, 9, 0, 0], 5⟩).len = 1
      ∨ (big_normalize ⟨[7, 0, 9, 0, 0], 5⟩).limb.getD
          ((big_normalize ⟨[7, 0, 9, 0, 0], 5⟩).len - 1) 0 ≠ 0) ∧
    ((big_normalize ⟨[7, 0, 9, 0, 0], 5⟩).len ≠ (BigInt.mk [7, 0, 9, 0, 0] 5).len →
      1 < (BigInt.mk [7, 0, 9, 0, 0] 5).len
        ∧ (BigInt.mk [7, 0, 9, 0, 0] 5).limb.getD ((BigInt.mk [7, 0, 9, 0, 0] 5).len - 1) 0
          = 0)) :=
  ⟨by decide, big_normalize_correct _ (by decide)⟩

/-- C14: for every well-formed `BigInt` and every 32-bit factor `k`,
`big_mul_small` leaves the value of the accumulator times `k`; every iteration
forms `limb[i] * k + carry` without wrapping the 64-bit variable; and `len`
grows by exactly one when the carry left after the last word is nonzero, which
is when the product needs one more word, and is unchanged otherwise. -/
theorem big_mul_small_correct (acc : BigInt) (k : Nat) (h : acc.WF) (hk : k < U32) :
    (big_mul_small acc k).value = acc.value * k ∧
    (big_mul_small_log k acc.len 0 acc.limb 0).length = acc.len ∧
    (∀ st ∈ big_mul_small_log k acc.len 0 acc.limb 0,
      st.word * k + st.carry < U64 ∧ st.cur = st.word * k + st.carry) ∧
    ((big_mul_small_loop k acc.len 0 acc.limb 0).2 ≠ 0 →
      (big_mul_small acc k).len = acc.len + 1) ∧
    ((big_mul_small_loop k acc.len 0 acc.limb 0).2 = 0 →
      (big_mul_small acc k).len = acc.len) ∧
    ((big_mul_small_loop k acc.len 0 acc.limb 0).2 ≠ 0
      ↔ 2 ^ (32 * acc.len) ≤ acc.value * k) := by
  obtain ⟨l1, l2⟩ := big_mul_small_log_spec k hk acc.len 0 acc.limb 0
    (getD_lt_of_mem _ h.2) (by decide)
  refine ⟨big_mul_small_value acc k h hk, l1, l2, ?_, ?_, big_mul_small_carry_iff acc k h hk⟩
  · intro hc
    unfold big_mul_small
    rw [grow_with_carry_len, if_pos hc]
  · intro hc
    unfold big_mul_small
    rw [grow_with_carry_len, if_neg (by simp [hc])]

theorem big_mul_small_correct_witness :
    (BigInt.mk [4294967295, 4294967295, 0] 2).WF ∧ 4294967295 < U32 ∧
    (big_mul_small ⟨[4294967295, 4294967295, 0], 2⟩ 4294967295).value
      = (BigInt.mk [4294967295, 4294967295, 0] 2).value * 4294967295 :=
  ⟨by decide, by decide, (big_mul_small_correct _ _ (by decide) (by decide)).1⟩

/-- C15: for every well-formed `BigInt` and every 32-bit addend `k`,
`big_add_small` leaves the value of the accumulator plus `k`; `len` grows by
exactly one when the carry survives past the last word, which is when the sum
needs one more word, and is unchanged otherwise. -/
theorem big_add_small_correct (acc : BigInt) (k : Nat) (h : acc.WF) (hk : k < U32) :
    (big_add_small acc k).value = acc.value + k ∧
    ((big_add_small_loop acc.len 0 acc.limb k).2 ≠ 0 →
      (big_add_small acc k).len = acc.len + 1) ∧
    ((big_add_small_loop acc.len 0 acc.limb k).2 = 0 →
      (big_add_small acc k).len = acc.len) ∧
    ((big_add_small_loop acc.len 0 acc.limb k).2 ≠ 0
      ↔ 2 ^ (32 * acc.len) ≤ acc.value + k) := by
  refine ⟨big_add_small_value acc k h hk, ?_, ?_, big_add_small_carry_iff acc k h hk⟩
  · intro hc
    unfold big_add_small
    rw [grow_with_carry_len, if_pos hc]
  · intro hc
    unfold big_add_small
    rw [grow_with_carry_len, if_neg (by simp [hc])]

theorem big_add_small_correct_witness :
    (BigInt.mk [4294967295, 4294967295] 2).WF ∧ 4294967295 < U32 ∧
    (big_add_small ⟨[4294967295, 4294967295], 2⟩ 4294967295).value
      = (BigInt.mk [4294967295, 4294967295] 2).value + 4294967295 :=
  ⟨by decide, by decide, (big_add_small_correct _ _ (by decide) (by decide)).1⟩

/-- C16, as the code has it: `big_mul_small` by the factor 0 turns the
normalized two-word `BigInt` with words 5 and 7 into two zero words with
`len = 2`, whose top word is zero although `len` is not 1. -/
theorem big_mul_small_zero_breaks_I3 :
    (BigInt.mk [5, 7] 2).WF ∧ (BigInt.mk [5, 7] 2).Normalized ∧ 0 < U32 ∧
    big_mul_small ⟨[5, 7], 2⟩ 0 = ⟨[0, 0], 2⟩ ∧
    ¬ (1 ≤ (big_mul_small ⟨[5, 7], 2⟩ 0).len ∧
      ((big_mul_small ⟨[5, 7], 2⟩ 0).len = 1
        ∨ (big_mul_small ⟨[5, 7], 2⟩ 0).limb.getD
            ((big_mul_small ⟨[5, 7], 2⟩ 0).len - 1) 0 ≠ 0)) := by
  decide

/-- C16, amended: `big_mul_small` preserves invariant I3 for every nonzero
32-bit factor, and for the factor 0 when the accumulator has one word.  For
every well-formed `BigInt` with `len ≥ 1` whose top word is nonzero unless
`len = 1`, and every 32-bit `k` with `k ≠ 0` or `len = 1`, the accumulator
after `big_mul_small` has `len ≥ 1` and a nonzero top word unless its `len`
is 1. -/
theorem big_mul_small_preserves_I3 (acc : BigInt) (k : Nat) (h : acc.WF)
    (h1 : 1 ≤ acc.len) (h3 : acc.len = 1 ∨ acc.limb.getD (acc.len - 1) 0 ≠ 0)
    (hk : k < U32) (h0 : k ≠ 0 ∨ acc.len = 1) :
    1 ≤ (big_mul_small acc k).len ∧
    ((big_mul_small acc k).len = 1
      ∨ (big_mul_small acc k).limb.getD ((big_mul_small acc k).len - 1) 0 ≠ 0) :=
  big_mul_small_normalized acc k h ⟨h1, h3⟩ hk h0

theorem big_mul_small_preserves_I3_witness :
    (BigInt.mk [0, 2147483648] 2).WF ∧ 1 ≤ (BigInt.mk [0, 2147483648] 2).len ∧
    ((BigInt.mk [0, 2147483648] 2).len = 1
      ∨ (BigInt.mk [0, 2147483648] 2).limb.getD ((BigInt.mk [0, 2147483648] 2).len - 1) 0
        ≠ 0) ∧
    2 < U32 ∧ ((2 : Nat) ≠ 0 ∨ (BigInt.mk [0, 2147483648] 2).len = 1) ∧
    (1 ≤ (big_mul_small ⟨[0, 2147483648], 2⟩ 2).len ∧
    ((big_mul_small ⟨[0, 2147483648], 2⟩ 2).len = 1
      ∨ (big_mul_small ⟨[0, 2147483648], 2⟩ 2).limb.getD
          ((big_mul_small ⟨[0, 2147483648], 2⟩ 2).len - 1) 0 ≠ 0)) :=
  ⟨by decide, by decide, by decide, by decide, by decide,
    big_mul_small_preserves_I3 _ _ (by decide) (by decide) (by decide) (by decide)
      (by decide)⟩

/-- C17: `big_add_small` preserves invariant I3.  For every well-formed
`BigInt` with `len ≥ 1` whose top word is nonzero unless `len = 1`, and every
32-bit addend `k`, the accumulator after `big_add_small` has `len ≥ 1` and a
nonzero top word unless its `len` is 1. -/
theorem big_add_small_preserves_I3 (acc : BigInt) (k : Nat) (h : acc.WF)
    (h1 : 1 ≤ acc.len) (h3 : acc.len = 1 ∨ acc.limb.getD (acc.len - 1) 0 ≠ 0)
    (hk : k < U32) :
    1 ≤ (big_add_small acc k).len ∧
    ((big_add_small acc k).len = 1
      ∨ (big_add_small acc k).limb.getD ((big_add_small acc k).len - 1) 0 ≠ 0) :=
  big_add_small_normalized acc k h ⟨h1, h3⟩ hk

theorem big_add_small_preserves_I3_witness :
    (BigInt.mk [4294967295, 4294967295] 2).WF ∧
    1 ≤ (BigInt.mk [4294967295, 4294967295] 2).len ∧
    ((BigInt.mk [4294967295, 4294967295] 2).len = 1
      ∨ (BigInt.mk [4294967295, 4294967295] 2).limb.getD
          ((BigInt.mk [4294967295, 4294967295] 2).len - 1) 0 ≠ 0) ∧
    1 < U32 ∧
    (1 ≤ (big_add_small ⟨[4294967295, 4294967295], 2⟩ 1).len ∧
    ((big_add_small ⟨[4294967295, 4294967295], 2⟩ 1).len = 1
      ∨ (big_add_small ⟨[4294967295, 4294967295], 2⟩ 1).limb.getD
          ((big_add_small ⟨[4294967295, 4294967295], 2⟩ 1).len - 1) 0 ≠ 0)) :=
  ⟨by decide, by decide, by decide, by decide,
    big_add_small_preserves_I3 _ _ (by decide) (by decide) (by decide) (by decide)⟩

/-- C18: in `big_mul`, for all well-formed operands, the outer loop runs
`n` times and each inner loop `m` times, and at every inner step `(i, j)` the
words read are `A[i]` and `B[j]`, the carry entering is below `2^32`, the exact
sum `C[i+j] + A[i]*B[j] + carry` is below `2^64`, the 64-bit variable `cur`
equals that sum, its low 32 bits are stored in `C[i+j]` and its high 32 bits
are the next carry. -/
theorem big_mul_cur_exact (A B : BigInt) (hA : A.WF) (hB : B.WF) :
    (big_mul_log A B).length = A.len ∧
    ∀ o ∈ big_mul_log A B, o.inner.length = B.len ∧
      ∀ st ∈ o.inner,
        st.i = o.i ∧ st.i < A.len ∧ st.j < B.len ∧
        st.a_i = A.limb.getD st.i 0 ∧ st.b_j = B.limb.getD st.j 0 ∧
        st.carry < U32 ∧
        st.C.getD (st.i + st.j) 0 + st.a_i * st.b_j + st.carry ≤ U64 - 1 ∧
        st.cur = st.C.getD (st.i + st.j) 0 + st.a_i * st.b_j + st.carry ∧
        st.C_out.getD (st.i + st.j) 0 = st.cur % U32 ∧
        st.carry_out = st.cur / U32 := by
  obtain ⟨h1, h2⟩ := big_mul_log_spec A B hA hB
  refine ⟨h1, ?_⟩
  intro o ho
  obtain ⟨e1, _, _, _, e5, e6⟩ := h2 o ho
  refine ⟨e5, ?_⟩
  intro st hst
  obtain ⟨f1, f2, f3, f4, _, f6, f7, f8, f9, f10⟩ := e6 st hst
  exact ⟨f1, by omega, f2, f3, f4, f6, by omega, f8, f9, f10⟩

theorem big_mul_cur_exact_witness :
    (BigInt.mk [4294967295, 4294967295] 2).WF ∧ (BigInt.mk [4294967295, 4294967295, 0] 3).WF ∧
    (big_mul_log ⟨[4294967295, 4294967295], 2⟩ ⟨[4294967295, 4294967295, 0], 3⟩).length
      = (BigInt.mk [4294967295, 4294967295] 2).len :=
  ⟨by decide, by decide, (big_mul_cur_exact _ _ (by decide) (by decide)).1⟩

/-- C19: in `big_mul`, for all well-formed operands and every outer
iteration `i`, when the store to `C.limb[i + m]` executes that word is still
0 and the carry is below `2^32`, so the value stored after the cast to 32 bits
is the whole sum; the block has `n + m` words throughout, and the indices
`i + j` and `i + m` are below `n + m`. -/
theorem big_mul_store_exact (A B : BigInt) (hA : A.WF) (hB : B.WF) :
    (big_mul_log A B).length = A.len ∧
    ∀ o ∈ big_mul_log A B,
      o.i < A.len ∧
      o.C.getD (o.i + B.len) 0 = 0 ∧ o.carry < U32 ∧
      (o.C.getD (o.i + B.len) 0 + o.carry) % U64 % U32
        = o.C.getD (o.i + B.len) 0 + o.carry ∧
      o.C.length = A.len + B.len ∧ o.i + B.len < A.len + B.len ∧
      ∀ st ∈ o.inner,
        st.C.length = A.len + B.len ∧ st.i + st.j < A.len + B.len := by
  obtain ⟨h1, h2⟩ := big_mul_log_spec A B hA hB
  refine ⟨h1, ?_⟩
  intro o ho
  obtain ⟨e1, e2, e3, e4, _, e6⟩ := h2 o ho
  refine ⟨e1, e4, e3, ?_, e2, by omega, ?_⟩
  · rw [e4, Nat.zero_add, Nat.mod_eq_of_lt (b := U64) (lt_trans e3 (by decide)),
      Nat.mod_eq_of_lt e3]
  · intro st hst
    obtain ⟨f1, f2, _, _, f5, _⟩ := e6 st hst
    exact ⟨f5, by omega⟩

theorem big_mul_store_exact_witness :
    (BigInt.mk [4294967295, 4294967295] 2).WF ∧ (BigInt.mk [4294967295] 1).WF ∧
    (big_mul_log ⟨[4294967295, 4294967295], 2⟩ ⟨[4294967295], 1⟩).length
      = (BigInt.mk [4294967295, 4294967295] 2).len :=
  ⟨by decide, by decide, (big_mul_store_exact _ _ (by decide) (by decide)).1⟩

/-- C20: canonical representation.  Two well-formed `BigInt`s with `len ≥ 1`
and a nonzero top word unless `len = 1` that have the same value have the
same `len` and the same words; and on such a `BigInt` `big_is_zero` holds
exactly when the value is 0. -/
theorem canonical_representation (a b : BigInt) (ha : a.WF) (hb : b.WF)
    (a1 : 1 ≤ a.len) (a3 : a.len = 1 ∨ a.limb.getD (a.len - 1) 0 ≠ 0)
    (b1 : 1 ≤ b.len) (b3 : b.len = 1 ∨ b.limb.getD (b.len - 1) 0 ≠ 0) :
    (a.value = b.value → a.len = b.len ∧ a.words = b.words) ∧
    (big_is_zero a = true ↔ a.value = 0) :=
  ⟨fun hv => normalized_unique a b ha hb ⟨a1, a3⟩ ⟨b1, b3⟩ hv, big_is_zero_iff a ⟨a1, a3⟩⟩

theorem canonical_representation_witness :
    (BigInt.mk [0, 1, 0, 0] 2).WF ∧ (BigInt.mk [0, 1, 5] 2).WF ∧
    1 ≤ (BigInt.mk [0, 1, 0, 0] 2).len ∧
    ((BigInt.mk [0, 1, 0, 0] 2).len = 1
      ∨ (BigInt.mk [0, 1, 0, 0] 2).limb.getD ((BigInt.mk [0, 1, 0, 0] 2).len - 1) 0 ≠ 0) ∧
    1 ≤ (BigInt.mk [0, 1, 5] 2).len ∧
    ((BigInt.mk [0, 1, 5] 2).len = 1
      ∨ (BigInt.mk [0, 1, 5] 2).limb.getD ((BigInt.mk [0, 1, 5] 2).len - 1) 0 ≠ 0) ∧
    (BigInt.mk [0, 1, 0, 0] 2).value = (BigInt.mk [0, 1, 5] 2).value ∧
    (BigInt.mk [0, 1, 0, 0] 2).len = (BigInt.mk [0, 1, 5] 2).len ∧
    (BigInt.mk [0, 1, 0, 0] 2).words = (BigInt.mk [0, 1, 5] 2).words :=
  ⟨by decide, by decide, by decide, by decide, by decide, by decide, by decide,
    (canonical_representation _ _ (by decide) (by decide) (by decide) (by decide)
      (by decide) (by decide)).1 (by decide)⟩

end BigMult
